import Mathlib

/-!
Verification of the line-intersection repair core
(`connect_lines_at_intersections` and its helpers from
`app/opensees/connecte_intersetc_lines.py`).

The embedding is shallow:
* Python `float` arithmetic is modelled by exact rational arithmetic (`ℚ`);
  every operation used by the code (`+`, `-`, `*`, `/`, `abs`, `min`, `max`,
  comparisons) is total and exact on `ℚ`, and `math.isfinite` is identically
  true, so the corresponding guard in `segmentIntersectionXY` disappears.
* Python `dict`s are modelled as association lists (`List (Nat × _)`) in
  insertion order: lookup returns the first binding, assignment updates the
  first binding in place or appends a fresh one at the end, exactly like the
  insertion-order semantics of `dict`.
* A Python `KeyError` (a line referencing an absent node) aborts the
  computation, so the pipeline is `Option`-valued and returns `none` there.
-/

set_option linter.unusedVariables false

namespace ConnectLines

/-- A node record: `{id, x, y, z}` with rational coordinates. -/
structure NodeInfo where
  id : Nat
  x : ℚ
  y : ℚ
  z : ℚ

deriving instance DecidableEq for NodeInfo

/-- A line record: `{id, Ni, Nj}` referencing two node ids. -/
structure LineInfo where
  id : Nat
  Ni : Nat
  Nj : Nat

deriving instance DecidableEq for LineInfo

/-- A member record: `{line_id, cross_section_id, material_name}`. -/
structure MemberInfo where
  line_id : Nat
  cross_section_id : Nat
  material_name : String

deriving instance DecidableEq for MemberInfo

abbrev NodesDict := List (Nat × NodeInfo)
abbrev LinesDict := List (Nat × LineInfo)
abbrev MembersDict := List (Nat × MemberInfo)
abbrev SplitsDict := List (Nat × List (ℚ × Nat))
abbrev MotherMap := List (Nat × List Nat)
abbrev ChildMap := List (Nat × Nat)

/-- Dictionary lookup: first binding of the key (Python `d[k]` / `d.get(k)`). -/
def dLookup {α : Type} : List (Nat × α) → Nat → Option α
  | [], _ => none
  | (k, v) :: rest, j => if k = j then some v else dLookup rest j

/-- Python `k in d`. -/
def dContains {α : Type} (m : List (Nat × α)) (k : Nat) : Bool :=
  (dLookup m k).isSome

/-- Dictionary assignment `d[k] = v`: update the first binding in place,
or append a fresh binding (insertion-order semantics of Python dicts). -/
def dInsert {α : Type} : List (Nat × α) → Nat → α → List (Nat × α)
  | [], k, v => [(k, v)]
  | (k', v') :: rest, k, v =>
    if k' = k then (k, v) :: rest else (k', v') :: dInsert rest k v

/-- Python `d[k].append(v)` for a dict of lists. In the pipeline the key is
always present (both maps are seeded from the same line collection), so the
Python `KeyError` branch is unreachable; on an absent key this is a no-op. -/
def dAppendAt {α : Type} : List (Nat × List α) → Nat → α → List (Nat × List α)
  | [], _, _ => []
  | (k', l) :: rest, k, v =>
    if k' = k then (k', l ++ [v]) :: rest else (k', l) :: dAppendAt rest k v

/-- The keys of a dictionary, in insertion order. -/
def keysOf {α : Type} (m : List (Nat × α)) : List Nat := m.map Prod.fst

/-- Python `max(d)` over the (natural-number) keys of a nonempty dict. -/
def maxKey {α : Type} (m : List (Nat × α)) : Nat := (keysOf m).foldl max 0

/-- Source `almostEqual(a, b, tol)`. -/
abbrev almostEqual (a b tol : ℚ) : Prop := |a - b| ≤ tol

/-- Source `segmentIntersectionXY`: parametric intersection of two plan
segments. `isfinite` is identically true over `ℚ`, so that guard vanishes. -/
def segmentIntersectionXY (p1 p2 q1 q2 : ℚ × ℚ) (tol : ℚ) :
    Option (ℚ × ℚ × ℚ × ℚ) :=
  let x1 := p1.1; let y1 := p1.2
  let x2 := p2.1; let y2 := p2.2
  let x3 := q1.1; let y3 := q1.2
  let x4 := q2.1; let y4 := q2.2
  let dxp := x2 - x1
  let dyp := y2 - y1
  let dxq := x4 - x3
  let dyq := y4 - y3
  let den := dxp * dyq - dyp * dxq
  if almostEqual den 0 tol then none
  else
    let rx := x3 - x1
    let ry := y3 - y1
    let t := (rx * dyq - ry * dxq) / den
    let u := (rx * dyp - ry * dxp) / den
    if t < -tol ∨ t > 1 + tol ∨ u < -tol ∨ u > 1 + tol then none
    else
      let t2 := min (max t 0) 1
      let u2 := min (max u 0) 1
      some (x1 + t2 * dxp, y1 + t2 * dyp, t2, u2)

/-- Source `findExistingNode`: first node within `tol` on all three axes. -/
def findExistingNode (nodes : NodesDict) (x y z tol : ℚ) : Option Nat :=
  match nodes with
  | [] => none
  | (nid, nd) :: rest =>
    if |nd.x - x| ≤ tol ∧ |nd.y - y| ≤ tol ∧ |nd.z - z| ≤ tol then some nid
    else findExistingNode rest x y z tol

/-- Source `cloneNodes`: rebuild each record field by field. -/
def cloneNodes (nodes : NodesDict) : NodesDict :=
  nodes.map (fun kv => (kv.1, { id := kv.2.id, x := kv.2.x, y := kv.2.y, z := kv.2.z }))

/-- Source `cloneLines`. -/
def cloneLines (lines : LinesDict) : LinesDict :=
  lines.map (fun kv => (kv.1, { id := kv.2.id, Ni := kv.2.Ni, Nj := kv.2.Nj }))

/-- Source `cloneMembers`. -/
def cloneMembers (members : MembersDict) : MembersDict :=
  members.map (fun kv =>
    (kv.1, { line_id := kv.2.line_id, cross_section_id := kv.2.cross_section_id,
             material_name := kv.2.material_name }))

/-- Source `initSplitParams`: seed each line with `(0, Ni)` and `(1, Nj)`. -/
def initSplitParams (new_lines : LinesDict) : SplitsDict :=
  new_lines.map (fun kv => (kv.1, [((0 : ℚ), kv.2.Ni), ((1 : ℚ), kv.2.Nj)]))

/-- Source `_vec2`. -/
def vec2 (a b : ℚ × ℚ) : ℚ × ℚ := (b.1 - a.1, b.2 - a.2)

/-- Source `_cross2`. -/
def cross2 (u v : ℚ × ℚ) : ℚ := u.1 * v.2 - u.2 * v.1

/-- Source `_dot2`. -/
def dot2 (u v : ℚ × ℚ) : ℚ := u.1 * v.1 + u.2 * v.2

/-- Source `_len2_sq`. -/
def len2sq (u : ℚ × ℚ) : ℚ := u.1 * u.1 + u.2 * u.2

/-- Source `collinearXY`: triangle area within tolerance of zero. -/
abbrev collinearXY (a b c : ℚ × ℚ) (tol : ℚ) : Prop :=
  |cross2 (vec2 a b) (vec2 a c)| ≤ tol

/-- Source `pointParamOnSegmentXY`; returns 0 for a degenerate segment. -/
def pointParamOnSegmentXY (a b p : ℚ × ℚ) : ℚ :=
  let ab := vec2 a b
  let ap := vec2 a p
  let denom := len2sq ab
  if denom = 0 then 0 else dot2 ap ab / denom

/-- Source `pointOnSegmentXY`. -/
abbrev pointOnSegmentXY (a b p : ℚ × ℚ) (tol : ℚ) : Prop :=
  collinearXY a b p tol ∧
    (-tol ≤ pointParamOnSegmentXY a b p ∧ pointParamOnSegmentXY a b p ≤ 1 + tol)

/-- Source `sameElevation`. -/
abbrev sameElevation (z1 z2 tol : ℚ) : Prop := |z1 - z2| ≤ tol

/-- Ordered pairs `(i, j)` with `i < j`, in the order of the source's nested
`for i / for j in range(i+1, n)` scan. -/
def allPairs {α : Type} : List α → List (α × α)
  | [] => []
  | x :: xs => xs.map (fun y => (x, y)) ++ allPairs xs

/-- One iteration of the inner loop of `collectIntersections`, for the line
pair `pr`. The hoisted outer-loop reads of `Pi`, `Pj` are inlined here: node
bindings are never overwritten (fresh ids only), so the values agree. -/
def collectStep (new_lines : LinesDict) (tol : ℚ)
    (st : NodesDict × SplitsDict × Nat) (pr : Nat × Nat) :
    Option (NodesDict × SplitsDict × Nat) :=
  match dLookup new_lines pr.1, dLookup new_lines pr.2 with
  | some li, some lj =>
    match dLookup st.1 li.Ni, dLookup st.1 li.Nj,
          dLookup st.1 lj.Ni, dLookup st.1 lj.Nj with
    | some nPi, some nPj, some nQi, some nQj =>
      let zi := (nPi.z + nPj.z) * (1/2)
      let zj := (nQi.z + nQj.z) * (1/2)
      if |zi - zj| > max tol (10 * tol) then some st
      else
        match segmentIntersectionXY (nPi.x, nPi.y) (nPj.x, nPj.y)
              (nQi.x, nQi.y) (nQj.x, nQj.y) tol with
        | none => some st
        | some (xi, yi, ti, uj) =>
          let zu := (zi + zj) * (1/2)
          match findExistingNode st.1 xi yi zu tol with
          | some nid =>
            some (st.1,
                  dAppendAt (dAppendAt st.2.1 pr.1 (ti, nid)) pr.2 (uj, nid),
                  st.2.2)
          | none =>
            let nid := st.2.2
            some (dInsert st.1 nid { id := nid, x := xi, y := yi, z := zu },
                  dAppendAt (dAppendAt st.2.1 pr.1 (ti, nid)) pr.2 (uj, nid),
                  nid + 1)
    | _, _, _, _ => none
  | _, _ => none

/-- The all-pairs loop of `collectIntersections`. -/
def collectLoop (new_lines : LinesDict) (tol : ℚ) :
    List (Nat × Nat) → NodesDict × SplitsDict × Nat →
    Option (NodesDict × SplitsDict × Nat)
  | [], st => some st
  | p :: ps, st =>
    match collectStep new_lines tol st p with
    | none => none
    | some st1 => collectLoop new_lines tol ps st1

/-- Source `collectIntersections`. -/
def collectIntersections (new_nodes : NodesDict) (new_lines : LinesDict)
    (splits : SplitsDict) (tol : ℚ) (next_node_id : Nat) :
    Option (NodesDict × SplitsDict × Nat) :=
  collectLoop new_lines tol (allPairs (keysOf new_lines))
    (new_nodes, splits, next_node_id)

/-- Stable insertion into a `t`-sorted list; together with `sortByT` this is
Python's stable `sorted(param_nodes, key=lambda tn: tn[0])`. -/
def insertByT (x : ℚ × Nat) : List (ℚ × Nat) → List (ℚ × Nat)
  | [] => [x]
  | y :: ys => if x.1 ≤ y.1 then x :: y :: ys else y :: insertByT x ys

/-- Stable sort by split parameter. -/
def sortByT : List (ℚ × Nat) → List (ℚ × Nat)
  | [] => []
  | x :: xs => insertByT x (sortByT xs)

/-- Source dedup inner loop: drop an entry whose node id equals the id of the
last kept entry. -/
def dedupAux (prev : Nat) : List (ℚ × Nat) → List (ℚ × Nat)
  | [] => []
  | y :: ys => if y.2 = prev then dedupAux prev ys else y :: dedupAux y.2 ys

/-- Source dedup of a sorted split list. -/
def dedupAdj : List (ℚ × Nat) → List (ℚ × Nat)
  | [] => []
  | x :: xs => x :: dedupAux x.2 xs

/-- Consecutive node-id pairs `(dedup[k], dedup[k+1])`. -/
def childPairs : List (ℚ × Nat) → List (Nat × Nat)
  | a :: b :: rest => (a.2, b.2) :: childPairs (b :: rest)
  | _ => []

/-- Source scan `for mid, m in list(new_members.items()) ... del ... break`:
return the first member whose `line_id` matches, and the dict without it. -/
def motherScanRemove : MembersDict → Nat → Option MemberInfo × MembersDict
  | [], _ => (none, [])
  | (mid, m) :: rest, lid =>
    if m.line_id = lid then (some m, rest)
    else
      let r := motherScanRemove rest lid
      (r.1, (mid, m) :: r.2)

/-- The mutable state of `buildChildren`. -/
structure BCState where
  lines : LinesDict
  members : MembersDict
  m2c : MotherMap
  c2m : ChildMap
  nextId : Nat
  toRemove : List Nat

deriving instance DecidableEq for BCState

/-- One iteration of the child-creation loop of `buildChildren`. -/
def childStep (lid : Nat) (mm : Option MemberInfo) (st : BCState)
    (ab : Nat × Nat) : BCState :=
  if ab.1 = ab.2 then st
  else
    let cid := st.nextId
    { lines := dInsert st.lines cid { id := cid, Ni := ab.1, Nj := ab.2 }
      members :=
        match mm with
        | some m => dInsert st.members cid
            { line_id := cid, cross_section_id := m.cross_section_id,
              material_name := m.material_name }
        | none => st.members
      m2c := dAppendAt st.m2c lid cid
      c2m := dInsert st.c2m cid lid
      nextId := cid + 1
      toRemove := st.toRemove }

/-- One iteration of the per-line loop of `buildChildren`. -/
def buildStep (st : BCState) (entry : Nat × List (ℚ × Nat)) : BCState :=
  let lid := entry.1
  let dedup := dedupAdj (sortByT entry.2)
  if dedup.length ≤ 2 then
    { st with m2c := dAppendAt st.m2c lid lid, c2m := dInsert st.c2m lid lid }
  else
    let sc := motherScanRemove st.members lid
    let st1 := List.foldl (childStep lid sc.1) { st with members := sc.2 }
      (childPairs dedup)
    { st1 with toRemove := st1.toRemove ++ [lid] }

/-- The dict comprehension seeding `mother_to_children` with empty lists. -/
def initMother (new_lines : LinesDict) : MotherMap :=
  List.foldl (fun acc kv => dInsert acc kv.1 []) [] new_lines

/-- Source `buildChildren`: split each line at its deduplicated parameters,
migrate the member record, and finally delete the split mothers. -/
def buildChildren (new_lines : LinesDict) (new_members : MembersDict)
    (splits : SplitsDict) (next_line_id : Nat) : BCState :=
  let st0 : BCState :=
    { lines := new_lines, members := new_members, m2c := initMother new_lines,
      c2m := [], nextId := next_line_id, toRemove := [] }
  let st := List.foldl buildStep st0 splits
  { st with lines := st.lines.filter (fun kv => decide (kv.1 ∉ st.toRemove)) }

/-- Per-line plan endpoints and average elevation; the source keeps these in
the two parallel dicts `endpoints_xy` and `avg_z`, built in one loop. -/
structure LineGeom where
  p1 : ℚ × ℚ
  p2 : ℚ × ℚ
  z : ℚ

deriving instance DecidableEq for LineGeom

/-- The precomputation loop of `augmentMappingsWithExistingSegments`;
fails (Python `KeyError`) if a line references an absent node. -/
def lineInfoList (nodes : NodesDict) : LinesDict → Option (List (Nat × LineGeom))
  | [] => some []
  | (lid, ln) :: rest =>
    match dLookup nodes ln.Ni, dLookup nodes ln.Nj with
    | some ni, some nj =>
      match lineInfoList nodes rest with
      | some acc =>
        some ((lid, { p1 := (ni.x, ni.y), p2 := (nj.x, nj.y),
                      z := (1/2) * (ni.z + nj.z) }) :: acc)
      | none => none
    | _, _ => none

/-- One iteration of the candidate loop of the augmenter. -/
def candStep (a b : ℚ × ℚ) (z_m tol : ℚ) (mother_id : Nat)
    (maps : MotherMap × ChildMap) (cand : Nat × LineGeom) :
    MotherMap × ChildMap :=
  if cand.1 = mother_id then maps
  else if dContains maps.2 cand.1 then maps
  else if ¬ sameElevation cand.2.z z_m tol then maps
  else if ¬ collinearXY a b cand.2.p1 tol ∨ ¬ collinearXY a b cand.2.p2 tol then maps
  else if ¬ pointOnSegmentXY a b cand.2.p1 tol ∨ ¬ pointOnSegmentXY a b cand.2.p2 tol then maps
  else (dAppendAt maps.1 mother_id cand.1, dInsert maps.2 cand.1 mother_id)

/-- One iteration of the mother loop of the augmenter: ensure the mother maps
to itself, then scan every line as an attachment candidate. -/
def augMotherStep (info : List (Nat × LineGeom)) (tol : ℚ)
    (maps : MotherMap × ChildMap) (mother_id : Nat) : MotherMap × ChildMap :=
  let g := dLookup info mother_id
  let a := match g with | some gg => gg.p1 | none => ((0 : ℚ), (0 : ℚ))
  let b := match g with | some gg => gg.p2 | none => ((0 : ℚ), (0 : ℚ))
  let z_m := match g with | some gg => gg.z | none => (0 : ℚ)
  let m2c1 := if dContains maps.1 mother_id then maps.1
              else dInsert maps.1 mother_id []
  let cur := (dLookup m2c1 mother_id).getD []
  let m2c2 := if mother_id ∈ cur then m2c1 else dAppendAt m2c1 mother_id mother_id
  let c2m1 := if dContains maps.2 mother_id then maps.2
              else dInsert maps.2 mother_id mother_id
  List.foldl (candStep a b z_m tol mother_id) (m2c2, c2m1) info

/-- Source `augmentMappingsWithExistingSegments`. -/
def augmentMappingsWithExistingSegments (nodes : NodesDict)
    (new_lines : LinesDict) (m2c : MotherMap) (c2m : ChildMap) (tol : ℚ) :
    Option (MotherMap × ChildMap) :=
  match lineInfoList nodes new_lines with
  | none => none
  | some info =>
    some (List.foldl (augMotherStep info tol) (m2c, c2m) (keysOf m2c))

/-- One iteration of `finalizeMappings`. -/
def finalizeStep (new_lines : LinesDict) (maps : MotherMap × ChildMap)
    (lid : Nat) : MotherMap × ChildMap :=
  let m2c1 := if dContains maps.1 lid then maps.1 else dInsert maps.1 lid []
  if ((dLookup m2c1 lid).getD []).isEmpty ∧ dContains new_lines lid then
    (dInsert m2c1 lid [lid], dInsert maps.2 lid lid)
  else (m2c1, maps.2)

/-- Source `finalizeMappings`. -/
def finalizeMappings (original_lines : LinesDict) (new_lines : LinesDict)
    (m2c : MotherMap) (c2m : ChildMap) : MotherMap × ChildMap :=
  List.foldl (finalizeStep new_lines) (m2c, c2m) (keysOf original_lines)

/-- The atomic result tuple of `connect_lines_at_intersections`. -/
structure ConnectResult where
  nodes : NodesDict
  lines : LinesDict
  members : MembersDict
  m2c : MotherMap
  c2m : ChildMap

deriving instance DecidableEq for ConnectResult

/-- Source `connect_lines_at_intersections` (the debug `print` is I/O and has
no effect on the returned value). -/
def connect_lines_at_intersections (nodes : NodesDict) (lines : LinesDict)
    (members : MembersDict) (tol : ℚ) : Option ConnectResult :=
  let new_nodes := cloneNodes nodes
  let new_lines := cloneLines lines
  let new_members := cloneMembers members
  let splits := initSplitParams new_lines
  let next_node_id := if new_nodes.isEmpty then 1 else maxKey new_nodes + 1
  let next_line_id := if new_lines.isEmpty then 1 else maxKey new_lines + 1
  match collectIntersections new_nodes new_lines splits tol next_node_id with
  | none => none
  | some st =>
    let bc := buildChildren new_lines new_members st.2.1 next_line_id
    match augmentMappingsWithExistingSegments st.1 bc.lines bc.m2c bc.c2m tol with
    | none => none
    | some maps =>
      let fin := finalizeMappings lines bc.lines maps.1 maps.2
      some { nodes := st.1, lines := bc.lines, members := bc.members,
             m2c := fin.1, c2m := fin.2 }

/-! ### Dictionary lemmas -/

theorem dLookup_eq_none {α : Type} {m : List (Nat × α)} {k : Nat}
    (h : k ∉ keysOf m) : dLookup m k = none := by
  induction m with
  | nil => rfl
  | cons kv rest ih =>
    obtain ⟨k', v'⟩ := kv
    simp only [keysOf, List.map_cons, List.mem_cons] at h
    push_neg at h
    simp only [dLookup]
    rw [if_neg (fun he => h.1 he.symm)]
    exact ih h.2

theorem mem_keys_of_dLookup {α : Type} {m : List (Nat × α)} {k : Nat} {v : α}
    (h : dLookup m k = some v) : k ∈ keysOf m := by
  by_contra hk
  rw [dLookup_eq_none hk] at h
  exact Option.noConfusion h

theorem dLookup_dInsert {α : Type} (m : List (Nat × α)) (k j : Nat) (v : α) :
    dLookup (dInsert m k v) j = if k = j then some v else dLookup m j := by
  induction m with
  | nil => simp [dInsert, dLookup]
  | cons kv rest ih =>
    obtain ⟨k', v'⟩ := kv
    simp only [dInsert]
    by_cases hk : k' = k
    · subst hk
      by_cases hj : k' = j <;> simp [dLookup, hj]
    · rw [if_neg hk]
      by_cases hj : k' = j
      · subst hj
        have : ¬ k = k' := fun he => hk he.symm
        simp [dLookup, this]
      · simp [dLookup, hj, ih]

theorem dLookup_dAppendAt {α : Type} (m : List (Nat × List α)) (k j : Nat)
    (v : α) :
    dLookup (dAppendAt m k v) j =
      if k = j then (dLookup m k).map (fun l => l ++ [v]) else dLookup m j := by
  induction m with
  | nil => simp [dAppendAt, dLookup]
  | cons kv rest ih =>
    obtain ⟨k', l'⟩ := kv
    simp only [dAppendAt]
    by_cases hk : k' = k
    · subst hk
      by_cases hj : k' = j <;> simp [dLookup, hj]
    · rw [if_neg hk]
      by_cases hj : k' = j
      · subst hj
        have h1 : ¬ k = k' := fun he => hk he.symm
        simp [dLookup, hk, h1]
      · simp [dLookup, hj, hk, ih]

theorem keysOf_dAppendAt {α : Type} (m : List (Nat × List α)) (k : Nat)
    (v : α) : keysOf (dAppendAt m k v) = keysOf m := by
  induction m with
  | nil => rfl
  | cons kv rest ih =>
    obtain ⟨k', l'⟩ := kv
    simp only [dAppendAt]
    by_cases hk : k' = k
    · subst hk; simp [keysOf]
    · simp [keysOf, hk] at ih ⊢; exact ih

theorem dContains_true_iff {α : Type} {m : List (Nat × α)} {k : Nat} :
    dContains m k = true ↔ ∃ v, dLookup m k = some v := by
  unfold dContains
  cases h : dLookup m k <;> simp [Option.isSome]

theorem dContains_false_iff {α : Type} {m : List (Nat × α)} {k : Nat} :
    dContains m k = false ↔ dLookup m k = none := by
  unfold dContains
  cases h : dLookup m k <;> simp [Option.isSome]

theorem dLookup_isSome_of_mem_keys {α : Type} {m : List (Nat × α)} {k : Nat}
    (h : k ∈ keysOf m) : (dLookup m k).isSome := by
  induction m with
  | nil => simp [keysOf] at h
  | cons kv rest ih =>
    simp only [dLookup]
    by_cases hk : kv.1 = k
    · simp [hk]
    · rw [if_neg hk]
      apply ih
      simp only [keysOf, List.map_cons, List.mem_cons] at h
      rcases h with h1 | h2
      · exact absurd h1.symm hk
      · exact h2

theorem dContains_iff_mem_keys {α : Type} {m : List (Nat × α)} {k : Nat} :
    dContains m k = true ↔ k ∈ keysOf m := by
  constructor
  · intro h
    obtain ⟨v, hv⟩ := dContains_true_iff.mp h
    exact mem_keys_of_dLookup hv
  · intro h
    exact dLookup_isSome_of_mem_keys h

theorem dContains_cons {α : Type} (k' : Nat) (v' : α) (rest : List (Nat × α))
    (k : Nat) (h : ¬ k' = k) :
    dContains ((k', v') :: rest) k = dContains rest k := by
  simp [dContains, dLookup, h]

theorem keysOf_dInsert {α : Type} (m : List (Nat × α)) (k : Nat) (v : α) :
    keysOf (dInsert m k v) =
      if dContains m k then keysOf m else keysOf m ++ [k] := by
  induction m with
  | nil => simp [dInsert, keysOf, dContains, dLookup, Option.isSome]
  | cons kv rest ih =>
    obtain ⟨k', v'⟩ := kv
    simp only [dInsert]
    by_cases hk : k' = k
    · subst hk
      have hc : dContains ((k', v') :: rest) k' = true := by
        simp [dContains, dLookup]
      rw [hc, if_pos rfl]
      simp [keysOf]
    · rw [if_neg hk, dContains_cons k' v' rest k hk]
      simp only [keysOf, List.map_cons] at ih ⊢
      rw [ih]
      by_cases hc : dContains rest k <;> simp [hc]

theorem foldl_max_init_le (l : List Nat) (a : Nat) : a ≤ l.foldl max a := by
  induction l generalizing a with
  | nil => simp
  | cons x xs ih => exact le_trans (le_max_left a x) (ih (max a x))

theorem mem_le_foldl_max {l : List Nat} {k : Nat} (a : Nat) (h : k ∈ l) :
    k ≤ l.foldl max a := by
  induction l generalizing a with
  | nil => simp at h
  | cons x xs ih =>
    rcases List.mem_cons.mp h with h1 | h2
    · subst h1
      exact le_trans (le_max_right a k) (foldl_max_init_le xs (max a k))
    · exact ih (max a x) h2

theorem mem_keys_le_maxKey {α : Type} {m : List (Nat × α)} {k : Nat}
    (h : k ∈ keysOf m) : k ≤ maxKey m :=
  mem_le_foldl_max 0 h

theorem dContains_dInsert {α : Type} (m : List (Nat × α)) (k j : Nat) (v : α) :
    dContains (dInsert m k v) j = (dContains m j || decide (k = j)) := by
  unfold dContains
  rw [dLookup_dInsert]
  by_cases h : k = j
  · simp [h]
  · simp [h]

/-! ### Clone identities: the working copies are element-for-element equal
to the caller-supplied collections. -/

theorem cloneNodes_eq (nodes : NodesDict) : cloneNodes nodes = nodes := by
  simp [cloneNodes]

theorem cloneLines_eq (lines : LinesDict) : cloneLines lines = lines := by
  simp [cloneLines]

theorem cloneMembers_eq (members : MembersDict) :
    cloneMembers members = members := by
  simp [cloneMembers]

/-! ### Seeding lemmas -/

theorem keysOf_initSplitParams (l : LinesDict) :
    keysOf (initSplitParams l) = keysOf l := by
  simp [initSplitParams, keysOf]

theorem dLookup_initSplitParams (l : LinesDict) (k : Nat) :
    dLookup (initSplitParams l) k =
      (dLookup l k).map (fun ln => [((0 : ℚ), ln.Ni), ((1 : ℚ), ln.Nj)]) := by
  induction l with
  | nil => rfl
  | cons kv rest ih =>
    simp only [initSplitParams, List.map_cons, dLookup] at ih ⊢
    by_cases hk : kv.1 = k
    · simp [hk]
    · simp [hk, ih, initSplitParams]

theorem dLookup_initMother_fold (l : LinesDict) (acc : MotherMap) (k : Nat) :
    dLookup (List.foldl (fun acc kv => dInsert acc kv.1 []) acc l) k =
      if k ∈ keysOf l then some [] else dLookup acc k := by
  induction l generalizing acc with
  | nil => simp [keysOf]
  | cons kv rest ih =>
    simp only [List.foldl_cons]
    rw [ih]
    by_cases hin : k ∈ keysOf rest
    · have hin2 : k ∈ keysOf (kv :: rest) := by
        simp only [keysOf, List.map_cons, List.mem_cons]
        exact Or.inr hin
      simp [hin, hin2]
    · rw [if_neg hin, dLookup_dInsert]
      by_cases hk : kv.1 = k
      · simp [keysOf, hk]
      · have : ¬ k ∈ keysOf (kv :: rest) := by
          simp only [keysOf, List.map_cons, List.mem_cons]
          push_neg
          exact ⟨fun he => hk he.symm, hin⟩
        simp [hk, this]

theorem dLookup_initMother (l : LinesDict) (k : Nat) :
    dLookup (initMother l) k = if k ∈ keysOf l then some [] else none := by
  unfold initMother
  rw [dLookup_initMother_fold]
  rfl

theorem keysOf_initMother_fold (l : LinesDict) (acc : MotherMap)
    (hnd : (keysOf l).Nodup) (hdisj : ∀ k ∈ keysOf l, dContains acc k = false) :
    keysOf (List.foldl (fun acc kv => dInsert acc kv.1 []) acc l) =
      keysOf acc ++ keysOf l := by
  induction l generalizing acc with
  | nil => simp [keysOf]
  | cons kv rest ih =>
    simp only [List.foldl_cons]
    have hk1 : dContains acc kv.1 = false :=
      hdisj kv.1 (by simp [keysOf])
    have hnd' : (keysOf rest).Nodup := by
      simp only [keysOf, List.map_cons, List.nodup_cons] at hnd
      exact hnd.2
    have hnotin : kv.1 ∉ keysOf rest := by
      simp only [keysOf, List.map_cons, List.nodup_cons] at hnd
      exact hnd.1
    rw [ih (dInsert acc kv.1 []) hnd' ?_]
    · rw [keysOf_dInsert, hk1]
      simp [keysOf]
    · intro k hk
      rw [dContains_dInsert]
      have h1 : dContains acc k = false :=
        hdisj k (by
          simp only [keysOf, List.map_cons, List.mem_cons]
          exact Or.inr hk)
      have h2 : ¬ kv.1 = k := fun he => hnotin (he ▸ hk)
      simp [h1, h2]

theorem keysOf_initMother (l : LinesDict) (hnd : (keysOf l).Nodup) :
    keysOf (initMother l) = keysOf l := by
  unfold initMother
  rw [keysOf_initMother_fold l [] hnd (fun k _ => rfl)]
  rfl

/-! ### Intersection collector lemmas -/

theorem collectStep_splits_keys {new_lines : LinesDict} {tol : ℚ}
    {st st1 : NodesDict × SplitsDict × Nat} {pr : Nat × Nat}
    (h : collectStep new_lines tol st pr = some st1) :
    keysOf st1.2.1 = keysOf st.2.1 := by
  unfold collectStep at h
  repeat' split at h
  all_goals try exact Option.noConfusion h
  all_goals simp only [Option.some.injEq] at h
  all_goals repeat' split at h
  all_goals (simp only [Option.some.injEq] at h; subst h; first | rfl | simp [keysOf_dAppendAt])

theorem collectLoop_splits_keys {new_lines : LinesDict} {tol : ℚ} :
    ∀ (ps : List (Nat × Nat)) (st st1 : NodesDict × SplitsDict × Nat),
    collectLoop new_lines tol ps st = some st1 →
    keysOf st1.2.1 = keysOf st.2.1 := by
  intro ps
  induction ps with
  | nil =>
    intro st st1 h
    simp only [collectLoop, Option.some.injEq] at h
    subst h; rfl
  | cons p ps ih =>
    intro st st1 h
    simp only [collectLoop] at h
    rcases hs : collectStep new_lines tol st p with _ | st2
    · rw [hs] at h; exact absurd h (by simp)
    · rw [hs] at h
      exact (ih st2 st1 h).trans (collectStep_splits_keys hs)

theorem collectIntersections_splits_keys {new_nodes : NodesDict}
    {new_lines : LinesDict} {splits : SplitsDict} {tol : ℚ} {nid : Nat}
    {out : NodesDict × SplitsDict × Nat}
    (h : collectIntersections new_nodes new_lines splits tol nid = some out) :
    keysOf out.2.1 = keysOf splits := by
  exact collectLoop_splits_keys _ _ _ h

/-! ### Member dictionary well-formedness and the mother-member scan -/

theorem dLookup_mem {α : Type} {m : List (Nat × α)} {k : Nat} {v : α}
    (h : dLookup m k = some v) : (k, v) ∈ m := by
  induction m with
  | nil => exact Option.noConfusion h
  | cons kv rest ih =>
    obtain ⟨k', v'⟩ := kv
    simp only [dLookup] at h
    by_cases hk : k' = k
    · rw [if_pos hk] at h
      simp only [Option.some.injEq] at h
      subst hk; subst h
      exact List.mem_cons_self _ _
    · rw [if_neg hk] at h
      exact List.mem_cons_of_mem _ (ih h)

theorem dInsert_eq_append {α : Type} {m : List (Nat × α)} {k : Nat} (v : α)
    (h : k ∉ keysOf m) : dInsert m k v = m ++ [(k, v)] := by
  induction m with
  | nil => rfl
  | cons kv rest ih =>
    simp only [keysOf, List.map_cons, List.mem_cons] at h
    push_neg at h
    simp only [dInsert]
    rw [if_neg (fun he => h.1 he.symm)]
    simp only [List.cons_append, List.cons.injEq, true_and]
    exact ih h.2

/-- The member dictionary as the application builds it: each member is keyed
by its own line id, keys are distinct, and all keys are below the id bound. -/
structure MembersInv (ms : MembersDict) (bound : Nat) : Prop where
  keyed : ∀ kv ∈ ms, (kv : Nat × MemberInfo).2.line_id = kv.1
  nodup : (keysOf ms).Nodup
  bounded : ∀ mid ∈ keysOf ms, mid < bound

theorem MembersInv.mono {ms : MembersDict} {b b' : Nat} (h : MembersInv ms b)
    (hb : b ≤ b') : MembersInv ms b' :=
  ⟨h.keyed, h.nodup, fun mid hm => lt_of_lt_of_le (h.bounded mid hm) hb⟩

theorem MembersInv.lookup_keyed {ms : MembersDict} {bound : Nat}
    (h : MembersInv ms bound) {mid : Nat} {mi : MemberInfo}
    (hl : dLookup ms mid = some mi) : mi.line_id = mid :=
  h.keyed (mid, mi) (dLookup_mem hl)

theorem motherScanRemove_sublist (ms : MembersDict) (lid : Nat) :
    (motherScanRemove ms lid).2.Sublist ms := by
  induction ms with
  | nil => simp [motherScanRemove]
  | cons kv rest ih =>
    obtain ⟨mid, mi⟩ := kv
    simp only [motherScanRemove]
    by_cases hm : mi.line_id = lid
    · rw [if_pos hm]
      exact List.sublist_cons_of_sublist _ (List.Sublist.refl rest)
    · rw [if_neg hm]
      exact List.Sublist.cons₂ _ ih

theorem motherScanRemove_membersInv {ms : MembersDict} {bound lid : Nat}
    (h : MembersInv ms bound) :
    MembersInv (motherScanRemove ms lid).2 bound := by
  have hs := motherScanRemove_sublist ms lid
  exact ⟨fun kv hkv => h.keyed kv (hs.mem hkv),
    h.nodup.sublist (hs.map Prod.fst),
    fun mid hm => h.bounded mid ((hs.map Prod.fst).mem hm)⟩

theorem motherScanRemove_fst {ms : MembersDict} {bound : Nat} (lid : Nat)
    (h : MembersInv ms bound) :
    (motherScanRemove ms lid).1 = dLookup ms lid := by
  induction ms with
  | nil => rfl
  | cons kv rest ih =>
    obtain ⟨mid, mi⟩ := kv
    have hkey : mi.line_id = mid := h.keyed (mid, mi) (List.mem_cons_self _ _)
    have htail : MembersInv rest bound := by
      refine ⟨fun kv hkv => h.keyed kv (List.mem_cons_of_mem _ hkv), ?_, ?_⟩
      · exact (List.nodup_cons.mp h.nodup).2
      · intro m hm
        exact h.bounded m (List.mem_cons_of_mem _ hm)
    simp only [motherScanRemove, dLookup]
    by_cases hm : mi.line_id = lid
    · have : mid = lid := hkey.symm.trans hm
      rw [if_pos hm, if_pos this]
    · have hne : ¬ mid = lid := fun he => hm (hkey.trans he)
      rw [if_neg hm, if_neg hne]
      exact ih htail

theorem motherScanRemove_snd_other {ms : MembersDict} {bound : Nat}
    (lid : Nat) (h : MembersInv ms bound) (k : Nat) (hk : k ≠ lid) :
    dLookup (motherScanRemove ms lid).2 k = dLookup ms k := by
  induction ms with
  | nil => rfl
  | cons kv rest ih =>
    obtain ⟨mid, mi⟩ := kv
    have hkey : mi.line_id = mid := h.keyed (mid, mi) (List.mem_cons_self _ _)
    have htail : MembersInv rest bound := by
      refine ⟨fun kv hkv => h.keyed kv (List.mem_cons_of_mem _ hkv),
        (List.nodup_cons.mp h.nodup).2, ?_⟩
      intro m hm
      exact h.bounded m (List.mem_cons_of_mem _ hm)
    simp only [motherScanRemove, dLookup]
    by_cases hm : mi.line_id = lid
    · have hmid : mid = lid := hkey.symm.trans hm
      rw [if_pos hm, if_neg (fun he : mid = k => hk (he.symm.trans hmid))]
    · rw [if_neg hm]
      by_cases hmk : mid = k
      · simp only [dLookup, if_pos hmk]
      · simp only [dLookup, if_neg hmk]
        exact ih htail

theorem motherScanRemove_snd_self {ms : MembersDict} {bound : Nat}
    (lid : Nat) (h : MembersInv ms bound) :
    dLookup (motherScanRemove ms lid).2 lid = none := by
  induction ms with
  | nil => rfl
  | cons kv rest ih =>
    obtain ⟨mid, mi⟩ := kv
    have hkey : mi.line_id = mid := h.keyed (mid, mi) (List.mem_cons_self _ _)
    have hnd := List.nodup_cons.mp h.nodup
    have htail : MembersInv rest bound :=
      ⟨fun kv hkv => h.keyed kv (List.mem_cons_of_mem _ hkv), hnd.2,
        fun m hm => h.bounded m (List.mem_cons_of_mem _ hm)⟩
    simp only [motherScanRemove, dLookup]
    by_cases hm : mi.line_id = lid
    · have hmid : mid = lid := hkey.symm.trans hm
      rw [if_pos hm]
      subst hmid
      exact dLookup_eq_none hnd.1
    · rw [if_neg hm]
      by_cases hmk : mid = lid
      · exact absurd (hkey.trans hmk) hm
      · simp only [dLookup, if_neg hmk]
        exact ih htail

/-! ### The child-creation loop of `buildChildren` -/

/-- What a freshly created child id owns in the member dictionary, depending
on whether the mother carried a member record. -/
def memberFact (mm : Option MemberInfo) (ms : MembersDict) (c : Nat) : Prop :=
  match mm with
  | some mi =>
    dLookup ms c = some { line_id := c, cross_section_id := mi.cross_section_id,
                          material_name := mi.material_name }
  | none => dLookup ms c = none

/-- Relational summary of a run of the child-creation loop for mother `lid`:
the id counter only grows, removal marks are untouched, other mothers'
entries are untouched, everything below the initial counter is untouched, and
the mother's entry grows by a block of fresh child ids, each mapped back to
the mother and carrying the inherited member record (or none). -/
def CSpec (lid : Nat) (mm : Option MemberInfo) (s0 s1 : BCState) : Prop :=
  s0.nextId ≤ s1.nextId ∧
  s1.toRemove = s0.toRemove ∧
  (∀ k, k ≠ lid → dLookup s1.m2c k = dLookup s0.m2c k) ∧
  (∀ k, k < s0.nextId →
    dLookup s1.c2m k = dLookup s0.c2m k ∧
    dLookup s1.members k = dLookup s0.members k ∧
    dLookup s1.lines k = dLookup s0.lines k) ∧
  ∃ newIds : List Nat,
    dLookup s1.m2c lid = (dLookup s0.m2c lid).map (fun l => l ++ newIds) ∧
    ∀ c ∈ newIds, s0.nextId ≤ c ∧ c < s1.nextId ∧
      dLookup s1.c2m c = some lid ∧ memberFact mm s1.members c

theorem CSpec.refl (lid : Nat) (mm : Option MemberInfo) (s : BCState) :
    CSpec lid mm s s := by
  refine ⟨le_refl _, rfl, fun k _ => rfl, fun k _ => ⟨rfl, rfl, rfl⟩,
    [], ?_, by simp⟩
  cases dLookup s.m2c lid <;> simp

theorem CSpec.trans {lid : Nat} {mm : Option MemberInfo} {s0 s1 s2 : BCState}
    (h1 : CSpec lid mm s0 s1) (h2 : CSpec lid mm s1 s2) :
    CSpec lid mm s0 s2 := by
  obtain ⟨le1, tr1, oth1, fr1, δ1, m1, c1⟩ := h1
  obtain ⟨le2, tr2, oth2, fr2, δ2, m2, c2⟩ := h2
  refine ⟨le1.trans le2, tr2.trans tr1, ?_, ?_, δ1 ++ δ2, ?_, ?_⟩
  · intro k hk
    exact (oth2 k hk).trans (oth1 k hk)
  · intro k hk
    obtain ⟨a1, b1, d1⟩ := fr1 k hk
    obtain ⟨a2, b2, d2⟩ := fr2 k (lt_of_lt_of_le hk le1)
    exact ⟨a2.trans a1, b2.trans b1, d2.trans d1⟩
  · rw [m2, m1, Option.map_map]
    congr 1
    funext l
    simp [List.append_assoc]
  · intro c hc
    rcases List.mem_append.mp hc with hm | hm
    · obtain ⟨hle, hlt, hcm, hmf⟩ := c1 c hm
      obtain ⟨a2, b2, d2⟩ := fr2 c hlt
      refine ⟨hle, lt_of_lt_of_le hlt le2, a2.trans hcm, ?_⟩
      unfold memberFact at hmf ⊢
      cases mm with
      | some mi => exact b2.trans hmf
      | none => exact b2.trans hmf
    · obtain ⟨hle, hlt, hcm, hmf⟩ := c2 c hm
      exact ⟨le1.trans hle, hlt, hcm, hmf⟩

theorem childStep_membersInv {lid : Nat} {mm : Option MemberInfo}
    {s : BCState} (ab : Nat × Nat)
    (h : MembersInv s.members s.nextId) :
    MembersInv (childStep lid mm s ab).members (childStep lid mm s ab).nextId := by
  unfold childStep
  by_cases he : ab.1 = ab.2
  · rw [if_pos he]; exact h
  · rw [if_neg he]
    cases mm with
    | none => exact h.mono (Nat.le_succ _)
    | some mi =>
      simp only
      have hnotin : s.nextId ∉ keysOf s.members :=
        fun hm => lt_irrefl _ (h.bounded _ hm)
      rw [dInsert_eq_append _ hnotin]
      refine ⟨?_, ?_, ?_⟩
      · intro kv hkv
        rcases List.mem_append.mp hkv with hm | hm
        · exact h.keyed kv hm
        · simp only [List.mem_singleton] at hm
          subst hm; rfl
      · simp only [keysOf, List.map_append]
        refine List.Nodup.append h.nodup (by simp) ?_
        intro a ha hb
        simp only [List.map_cons, List.map_nil, List.mem_singleton] at hb
        subst hb
        exact hnotin ha
      · intro mid hm
        simp only [keysOf, List.map_append, List.mem_append] at hm
        rcases hm with hm | hm
        · exact lt_of_lt_of_le (h.bounded mid hm) (Nat.le_succ _)
        · simp at hm
          subst hm
          exact Nat.lt_succ_self _

theorem childStep_cspec {lid : Nat} {mm : Option MemberInfo} {s : BCState}
    (ab : Nat × Nat) (h : MembersInv s.members s.nextId) :
    CSpec lid mm s (childStep lid mm s ab) := by
  unfold childStep
  by_cases he : ab.1 = ab.2
  · rw [if_pos he]; exact CSpec.refl lid mm s
  · rw [if_neg he]
    simp only
    refine ⟨Nat.le_succ _, rfl, ?_, ?_, [s.nextId], ?_, ?_⟩
    · intro k hk
      rw [dLookup_dAppendAt]
      rw [if_neg (fun he2 : lid = k => hk he2.symm)]
    · intro k hk
      have hne : ¬ s.nextId = k := fun he2 => absurd (he2 ▸ hk) (lt_irrefl _)
      refine ⟨?_, ?_, ?_⟩
      · rw [dLookup_dInsert, if_neg hne]
      · cases mm with
        | none => rfl
        | some mi => simp only; rw [dLookup_dInsert, if_neg hne]
      · rw [dLookup_dInsert, if_neg hne]
    · rw [dLookup_dAppendAt, if_pos rfl]
    · intro c hc
      simp only [List.mem_singleton] at hc
      subst hc
      refine ⟨le_refl _, Nat.lt_succ_self _, ?_, ?_⟩
      · rw [dLookup_dInsert, if_pos rfl]
      · unfold memberFact
        cases mm with
        | some mi => simp only; rw [dLookup_dInsert, if_pos rfl]
        | none =>
          simp only
          exact dLookup_eq_none (fun hm => lt_irrefl _ (h.bounded _ hm))

theorem childLoop_cspec {lid : Nat} {mm : Option MemberInfo} :
    ∀ (ps : List (Nat × Nat)) (s : BCState),
    MembersInv s.members s.nextId →
    CSpec lid mm s (List.foldl (childStep lid mm) s ps) ∧
    MembersInv (List.foldl (childStep lid mm) s ps).members
      (List.foldl (childStep lid mm) s ps).nextId := by
  intro ps
  induction ps with
  | nil => exact fun s h => ⟨CSpec.refl lid mm s, h⟩
  | cons ab ps ih =>
    intro s h
    simp only [List.foldl_cons]
    obtain ⟨hc, hm⟩ := ih (childStep lid mm s ab) (childStep_membersInv ab h)
    exact ⟨(childStep_cspec ab h).trans hc, hm⟩

/-! ### Per-line lemmas for `buildStep` -/

theorem childStep_m2c_keys (lid : Nat) (mm : Option MemberInfo) (s : BCState)
    (ab : Nat × Nat) :
    keysOf (childStep lid mm s ab).m2c = keysOf s.m2c := by
  unfold childStep
  by_cases he : ab.1 = ab.2
  · rw [if_pos he]
  · rw [if_neg he]
    exact keysOf_dAppendAt _ _ _

theorem childLoop_m2c_keys (lid : Nat) (mm : Option MemberInfo) :
    ∀ (ps : List (Nat × Nat)) (s : BCState),
    keysOf (List.foldl (childStep lid mm) s ps).m2c = keysOf s.m2c := by
  intro ps
  induction ps with
  | nil => exact fun s => rfl
  | cons ab ps ih =>
    intro s
    simp only [List.foldl_cons]
    exact (ih _).trans (childStep_m2c_keys lid mm s ab)

theorem buildStep_m2c_keys (st : BCState) (e : Nat × List (ℚ × Nat)) :
    keysOf (buildStep st e).m2c = keysOf st.m2c := by
  unfold buildStep
  by_cases hd : (dedupAdj (sortByT e.2)).length ≤ 2
  · rw [if_pos hd]
    exact keysOf_dAppendAt _ _ _
  · rw [if_neg hd]
    exact childLoop_m2c_keys _ _ _ _

theorem buildLoop_m2c_keys :
    ∀ (es : List (Nat × List (ℚ × Nat))) (st : BCState),
    keysOf (List.foldl buildStep st es).m2c = keysOf st.m2c := by
  intro es
  induction es with
  | nil => exact fun st => rfl
  | cons e es ih =>
    intro st
    simp only [List.foldl_cons]
    exact (ih _).trans (buildStep_m2c_keys st e)

/-- Unfolding of the no-split branch of `buildStep`. -/
theorem buildStep_self {st : BCState} {lid : Nat} {s : List (ℚ × Nat)}
    (h : (dedupAdj (sortByT s)).length ≤ 2) :
    buildStep st (lid, s) =
      { st with m2c := dAppendAt st.m2c lid lid,
                c2m := dInsert st.c2m lid lid } := by
  unfold buildStep
  rw [if_pos h]

/-- Full description of the split branch of `buildStep` for mother `lid`. -/
theorem buildStep_split {st : BCState} {lid : Nat} {s : List (ℚ × Nat)}
    (h2 : ¬ (dedupAdj (sortByT s)).length ≤ 2)
    (hMI : MembersInv st.members st.nextId)
    (hlid : lid < st.nextId) :
    st.nextId ≤ (buildStep st (lid, s)).nextId ∧
    (buildStep st (lid, s)).toRemove = st.toRemove ++ [lid] ∧
    (∀ k, k ≠ lid → dLookup (buildStep st (lid, s)).m2c k = dLookup st.m2c k) ∧
    (∀ k, k < st.nextId → k ≠ lid →
      dLookup (buildStep st (lid, s)).c2m k = dLookup st.c2m k ∧
      dLookup (buildStep st (lid, s)).members k = dLookup st.members k) ∧
    (∀ k, k < st.nextId →
      dLookup (buildStep st (lid, s)).lines k = dLookup st.lines k) ∧
    dLookup (buildStep st (lid, s)).members lid = none ∧
    dLookup (buildStep st (lid, s)).c2m lid = dLookup st.c2m lid ∧
    MembersInv (buildStep st (lid, s)).members (buildStep st (lid, s)).nextId ∧
    ∃ newIds : List Nat,
      dLookup (buildStep st (lid, s)).m2c lid =
        (dLookup st.m2c lid).map (fun l => l ++ newIds) ∧
      ∀ c ∈ newIds, st.nextId ≤ c ∧ c < (buildStep st (lid, s)).nextId ∧
        dLookup (buildStep st (lid, s)).c2m c = some lid ∧
        memberFact (dLookup st.members lid) (buildStep st (lid, s)).members c := by
  have hscan1 : (motherScanRemove st.members lid).1 = dLookup st.members lid :=
    motherScanRemove_fst lid hMI
  have hscan2 : ∀ k, k ≠ lid →
      dLookup (motherScanRemove st.members lid).2 k = dLookup st.members k :=
    fun k hk => motherScanRemove_snd_other lid hMI k hk
  have hscan3 : dLookup (motherScanRemove st.members lid).2 lid = none :=
    motherScanRemove_snd_self lid hMI
  have hscanInv : MembersInv (motherScanRemove st.members lid).2 st.nextId :=
    motherScanRemove_membersInv hMI
  set sInner : BCState := { st with members := (motherScanRemove st.members lid).2 } with hsInner
  have hInnerInv : MembersInv sInner.members sInner.nextId := hscanInv
  obtain ⟨hcs, hMI1⟩ :=
    @childLoop_cspec lid (motherScanRemove st.members lid).1
      (childPairs (dedupAdj (sortByT s))) sInner hInnerInv
  set s1 : BCState :=
    List.foldl (childStep lid (motherScanRemove st.members lid).1) sInner
      (childPairs (dedupAdj (sortByT s))) with hs1
  obtain ⟨le1, tr1, oth1, fr1, δ, mδ, cδ⟩ := hcs
  have hstep : buildStep st (lid, s) = { s1 with toRemove := s1.toRemove ++ [lid] } := by
    unfold buildStep
    rw [if_neg h2]
  rw [hstep]
  refine ⟨le1, by rw [tr1], ?_, ?_, ?_, ?_, ?_, ?_, δ, ?_, ?_⟩
  · intro k hk
    exact oth1 k hk
  · intro k hk hkl
    obtain ⟨a1, b1, _⟩ := fr1 k hk
    exact ⟨a1, b1.trans (hscan2 k hkl)⟩
  · intro k hk
    exact (fr1 k hk).2.2
  · exact ((fr1 lid hlid).2.1).trans hscan3
  · exact (fr1 lid hlid).1
  · exact hMI1
  · exact mδ
  · intro c hc
    obtain ⟨hle, hlt, hcm, hmf⟩ := cδ c hc
    refine ⟨hle, hlt, hcm, ?_⟩
    rw [hscan1] at hmf
    exact hmf

/-- Frame facts for a single `buildStep`: the id counter only grows, removal
marks only gain the processed key, and every key other than the processed one
(below the counter, for id-indexed data) is untouched. -/
theorem buildStep_frame (st : BCState) (e : Nat × List (ℚ × Nat))
    (hMI : MembersInv st.members st.nextId) :
    st.nextId ≤ (buildStep st e).nextId ∧
    (∀ k, k ∈ (buildStep st e).toRemove → k ∈ st.toRemove ∨ k = e.1) ∧
    (∀ k, k ∈ st.toRemove → k ∈ (buildStep st e).toRemove) ∧
    (∀ k, k ≠ e.1 → dLookup (buildStep st e).m2c k = dLookup st.m2c k) ∧
    (∀ k, k ≠ e.1 → k < st.nextId →
      dLookup (buildStep st e).c2m k = dLookup st.c2m k ∧
      dLookup (buildStep st e).members k = dLookup st.members k) ∧
    (∀ k, k < st.nextId → dLookup (buildStep st e).lines k = dLookup st.lines k) ∧
    MembersInv (buildStep st e).members (buildStep st e).nextId := by
  obtain ⟨lid, s⟩ := e
  by_cases hd : (dedupAdj (sortByT s)).length ≤ 2
  · rw [buildStep_self hd]
    refine ⟨le_refl _, fun k hk => Or.inl hk, fun k hk => hk, ?_, ?_,
      fun k _ => rfl, hMI⟩
    · intro k hk
      rw [dLookup_dAppendAt, if_neg (fun he : lid = k => hk he.symm)]
    · intro k hk _
      rw [dLookup_dInsert, if_neg (fun he : lid = k => hk he.symm)]
      exact ⟨rfl, rfl⟩
  · have hscan2 : ∀ k, k ≠ lid →
        dLookup (motherScanRemove st.members lid).2 k = dLookup st.members k :=
      fun k hk => motherScanRemove_snd_other lid hMI k hk
    have hscanInv : MembersInv (motherScanRemove st.members lid).2 st.nextId :=
      motherScanRemove_membersInv hMI
    obtain ⟨hcs, hMI1⟩ :=
      @childLoop_cspec lid (motherScanRemove st.members lid).1
        (childPairs (dedupAdj (sortByT s)))
        { st with members := (motherScanRemove st.members lid).2 } hscanInv
    obtain ⟨le1, tr1, oth1, fr1, δ, mδ, cδ⟩ := hcs
    have hstep : buildStep st (lid, s) =
        { List.foldl (childStep lid (motherScanRemove st.members lid).1)
            { st with members := (motherScanRemove st.members lid).2 }
            (childPairs (dedupAdj (sortByT s))) with
          toRemove :=
            (List.foldl (childStep lid (motherScanRemove st.members lid).1)
              { st with members := (motherScanRemove st.members lid).2 }
              (childPairs (dedupAdj (sortByT s)))).toRemove ++ [lid] } := by
      unfold buildStep
      rw [if_neg hd]
    rw [hstep]
    refine ⟨le1, ?_, ?_, fun k hk => oth1 k hk, ?_, fun k hk => (fr1 k hk).2.2, hMI1⟩
    · intro k hk
      simp only [tr1] at hk
      rcases List.mem_append.mp hk with hm | hm
      · exact Or.inl hm
      · simp only [List.mem_singleton] at hm
        exact Or.inr hm
    · intro k hk
      simp only [tr1]
      exact List.mem_append.mpr (Or.inl hk)
    · intro k hk hklt
      obtain ⟨a1, b1, _⟩ := fr1 k hklt
      exact ⟨a1, b1.trans (hscan2 k hk)⟩

/-- Frame facts for the whole per-line fold of `buildChildren`. -/
theorem buildLoop_frame :
    ∀ (es : List (Nat × List (ℚ × Nat))) (st : BCState),
    MembersInv st.members st.nextId →
    st.nextId ≤ (List.foldl buildStep st es).nextId ∧
    (∀ k, k ∈ (List.foldl buildStep st es).toRemove →
      k ∈ st.toRemove ∨ k ∈ keysOf es) ∧
    (∀ k, k ∈ st.toRemove → k ∈ (List.foldl buildStep st es).toRemove) ∧
    (∀ k, k ∉ keysOf es →
      dLookup (List.foldl buildStep st es).m2c k = dLookup st.m2c k) ∧
    (∀ k, k ∉ keysOf es → k < st.nextId →
      dLookup (List.foldl buildStep st es).c2m k = dLookup st.c2m k ∧
      dLookup (List.foldl buildStep st es).members k = dLookup st.members k) ∧
    (∀ k, k < st.nextId →
      dLookup (List.foldl buildStep st es).lines k = dLookup st.lines k) ∧
    MembersInv (List.foldl buildStep st es).members
      (List.foldl buildStep st es).nextId := by
  intro es
  induction es with
  | nil =>
    intro st h
    exact ⟨le_refl _, fun k hk => Or.inl hk, fun k hk => hk,
      fun k _ => rfl, fun k _ _ => ⟨rfl, rfl⟩, fun k _ => rfl, h⟩
  | cons e es ih =>
    intro st h
    simp only [List.foldl_cons]
    obtain ⟨sle, str1, str2, sm2c, scm, sln, sMI⟩ := buildStep_frame st e h
    obtain ⟨ile, itr1, itr2, im2c, icm, iln, iMI⟩ := ih (buildStep st e) sMI
    have hkeys : ∀ k : Nat, k ∉ keysOf (e :: es) → k ≠ e.1 ∧ k ∉ keysOf es := by
      intro k hk
      simp only [keysOf, List.map_cons, List.mem_cons] at hk
      push_neg at hk
      exact ⟨hk.1, hk.2⟩
    refine ⟨sle.trans ile, ?_, ?_, ?_, ?_, ?_, iMI⟩
    · intro k hk
      rcases itr1 k hk with hm | hm
      · rcases str1 k hm with hm2 | hm2
        · exact Or.inl hm2
        · exact Or.inr (by simp [keysOf, hm2])
      · exact Or.inr (by
          simp only [keysOf, List.map_cons, List.mem_cons]
          exact Or.inr hm)
    · intro k hk
      exact itr2 k (str2 k hk)
    · intro k hk
      obtain ⟨h1, h2⟩ := hkeys k hk
      exact (im2c k h2).trans (sm2c k h1)
    · intro k hk hklt
      obtain ⟨h1, h2⟩ := hkeys k hk
      obtain ⟨a2, b2⟩ := icm k h2 (lt_of_lt_of_le hklt sle)
      obtain ⟨a1, b1⟩ := scm k h1 hklt
      exact ⟨a2.trans a1, b2.trans b1⟩
    · intro k hk
      exact (iln k (lt_of_lt_of_le hk sle)).trans (sln k hk)

/-! ### The partition invariant carried through `buildChildren` -/

/-- Invariant tying the two lineage maps together during the build fold:
`ks` is the fixed key set of `mother_to_children` (the original line ids, all
below `base`), `rem` the keys not yet processed. Every recorded child points
back to its mother and vice versa, mothers' ids stay below `base` while child
ids live in `[base, nextId)`, and every line id is either already claimed in
`child_to_mother`, still pending, or marked for removal. -/
structure Good (st : BCState) (base : Nat) (ks : List Nat) (rem : List Nat) :
    Prop where
  keys_m2c : keysOf st.m2c = ks
  base_le : base ≤ st.nextId
  inv_mc : ∀ m l, dLookup st.m2c m = some l → ∀ c ∈ l,
    dLookup st.c2m c = some m
  inv_cm : ∀ k v, dLookup st.c2m k = some v → ∃ l,
    dLookup st.m2c v = some l ∧ k ∈ l
  b1 : ∀ k v, dLookup st.c2m k = some v → v = k ∨ base ≤ k
  b2 : ∀ m l, dLookup st.m2c m = some l → ∀ c ∈ l,
    c = m ∨ (base ≤ c ∧ c < st.nextId)
  lines_cov : ∀ k, dContains st.lines k = true →
    dContains st.c2m k = true ∨ k ∈ rem ∨ k ∈ st.toRemove

theorem childStep_good {base : Nat} {ks rem : List Nat} {lid : Nat}
    {mm : Option MemberInfo} {st : BCState} (ab : Nat × Nat)
    (hks : ∀ k ∈ ks, k < base) (hlid : lid ∈ ks)
    (hg : Good st base ks rem) : Good (childStep lid mm st ab) base ks rem := by
  unfold childStep
  by_cases he : ab.1 = ab.2
  · rw [if_pos he]; exact hg
  · rw [if_neg he]
    have hlidlt : lid < st.nextId := lt_of_lt_of_le (hks lid hlid) hg.base_le
    have hmem_lt : ∀ m l, dLookup st.m2c m = some l → ∀ c ∈ l, c < st.nextId := by
      intro m l hl c hc
      rcases hg.b2 m l hl c hc with hcm | ⟨_, hlt⟩
      · subst hcm
        exact lt_of_lt_of_le (hks c (hg.keys_m2c ▸ mem_keys_of_dLookup hl)) hg.base_le
      · exact hlt
    refine ⟨?_, ?_, ?_, ?_, ?_, ?_, ?_⟩
    · simp only
      rw [keysOf_dAppendAt]
      exact hg.keys_m2c
    · exact hg.base_le.trans (Nat.le_succ _)
    · intro m l hl c hc
      simp only at hl ⊢
      rw [dLookup_dAppendAt] at hl
      rw [dLookup_dInsert]
      by_cases hm : lid = m
      · subst hm
        rw [if_pos rfl] at hl
        rcases ho : dLookup st.m2c lid with _ | l0
        · rw [ho] at hl; exact Option.noConfusion hl
        · rw [ho] at hl
          simp only [Option.map_some', Option.some.injEq] at hl
          subst hl
          rcases List.mem_append.mp hc with hc0 | hc1
          · have := hg.inv_mc lid l0 ho c hc0
            rw [if_neg (fun hcid : st.nextId = c =>
              absurd (hcid ▸ hmem_lt lid l0 ho c hc0) (lt_irrefl _))]
            exact this
          · simp only [List.mem_singleton] at hc1
            subst hc1
            rw [if_pos rfl]
      · rw [if_neg hm] at hl
        have := hg.inv_mc m l hl c hc
        rw [if_neg (fun hcid : st.nextId = c =>
          absurd (hcid ▸ hmem_lt m l hl c hc) (lt_irrefl _))]
        exact this
    · intro k v hl
      simp only at hl ⊢
      rw [dLookup_dInsert] at hl
      by_cases hk : st.nextId = k
      · rw [if_pos hk] at hl
        simp only [Option.some.injEq] at hl
        subst hl
        have hsome := @dLookup_isSome_of_mem_keys _ st.m2c lid
          (hg.keys_m2c ▸ hlid)
        rcases ho : dLookup st.m2c lid with _ | l0
        · rw [ho] at hsome; exact absurd hsome (by simp)
        · refine ⟨l0 ++ [st.nextId], ?_, ?_⟩
          · rw [dLookup_dAppendAt, if_pos rfl, ho]
            rfl
          · subst hk
            exact List.mem_append.mpr (Or.inr (by simp))
      · rw [if_neg hk] at hl
        obtain ⟨l, hml, hkl⟩ := hg.inv_cm k v hl
        by_cases hv : lid = v
        · subst hv
          rcases ho : dLookup st.m2c lid with _ | l0
          · rw [ho] at hml; exact Option.noConfusion hml
          · rw [ho] at hml
            simp only [Option.some.injEq] at hml
            subst hml
            refine ⟨l0 ++ [st.nextId], ?_, List.mem_append.mpr (Or.inl hkl)⟩
            rw [dLookup_dAppendAt, if_pos rfl, ho]
            rfl
        · refine ⟨l, ?_, hkl⟩
          rw [dLookup_dAppendAt, if_neg hv]
          exact hml
    · intro k v hl
      simp only at hl
      rw [dLookup_dInsert] at hl
      by_cases hk : st.nextId = k
      · exact Or.inr (hk ▸ hg.base_le)
      · rw [if_neg hk] at hl
        exact hg.b1 k v hl
    · intro m l hl c hc
      simp only at hl ⊢
      rw [dLookup_dAppendAt] at hl
      by_cases hm : lid = m
      · subst hm
        rw [if_pos rfl] at hl
        rcases ho : dLookup st.m2c lid with _ | l0
        · rw [ho] at hl; exact Option.noConfusion hl
        · rw [ho] at hl
          simp only [Option.map_some', Option.some.injEq] at hl
          subst hl
          rcases List.mem_append.mp hc with hc0 | hc1
          · rcases hg.b2 lid l0 ho c hc0 with h1 | ⟨h2, h3⟩
            · exact Or.inl h1
            · exact Or.inr ⟨h2, h3.trans (Nat.lt_succ_self _)⟩
          · simp only [List.mem_singleton] at hc1
            subst hc1
            exact Or.inr ⟨hg.base_le, Nat.lt_succ_self _⟩
      · rw [if_neg hm] at hl
        rcases hg.b2 m l hl c hc with h1 | ⟨h2, h3⟩
        · exact Or.inl h1
        · exact Or.inr ⟨h2, h3.trans (Nat.lt_succ_self _)⟩
    · intro k hk
      simp only at hk ⊢
      rw [dContains_dInsert] at hk
      rw [dContains_dInsert]
      rcases Bool.or_eq_true_iff.mp hk with hk1 | hk2
      · rcases hg.lines_cov k hk1 with h1 | h2
        · exact Or.inl (by simp [h1])
        · exact Or.inr h2
      · exact Or.inl (by simp [of_decide_eq_true hk2])

theorem childLoop_good {base : Nat} {ks rem : List Nat} {lid : Nat}
    {mm : Option MemberInfo} (hks : ∀ k ∈ ks, k < base) (hlid : lid ∈ ks) :
    ∀ (ps : List (Nat × Nat)) (st : BCState), Good st base ks rem →
    Good (List.foldl (childStep lid mm) st ps) base ks rem := by
  intro ps
  induction ps with
  | nil => exact fun st hg => hg
  | cons ab ps ih =>
    intro st hg
    simp only [List.foldl_cons]
    exact ih _ (childStep_good ab hks hlid hg)

theorem good_toRemove_append {st : BCState} {base : Nat} {ks rem : List Nat}
    {lid : Nat} (hg : Good st base ks (lid :: rem)) :
    Good { st with toRemove := st.toRemove ++ [lid] } base ks rem := by
  refine ⟨hg.keys_m2c, hg.base_le, hg.inv_mc, hg.inv_cm, hg.b1, hg.b2, ?_⟩
  intro k hk
  simp only at hk ⊢
  rcases hg.lines_cov k hk with h1 | h2 | h3
  · exact Or.inl h1
  · rcases List.mem_cons.mp h2 with h4 | h5
    · exact Or.inr (Or.inr (List.mem_append.mpr (Or.inr (by simp [h4]))))
    · exact Or.inr (Or.inl h5)
  · exact Or.inr (Or.inr (List.mem_append.mpr (Or.inl h3)))

theorem buildStep_good {base : Nat} {ks rem : List Nat} {st : BCState}
    {e : Nat × List (ℚ × Nat)} (hks : ∀ k ∈ ks, k < base) (hlid : e.1 ∈ ks)
    (hg : Good st base ks (e.1 :: rem)) :
    Good (buildStep st e) base ks rem := by
  obtain ⟨lid, s⟩ := e
  by_cases hd : (dedupAdj (sortByT s)).length ≤ 2
  · rw [buildStep_self hd]
    have hsome := @dLookup_isSome_of_mem_keys _ st.m2c lid
      (hg.keys_m2c ▸ hlid)
    rcases ho : dLookup st.m2c lid with _ | l0
    · rw [ho] at hsome; exact absurd hsome (by simp)
    refine ⟨?_, hg.base_le, ?_, ?_, ?_, ?_, ?_⟩
    · simp only
      rw [keysOf_dAppendAt]
      exact hg.keys_m2c
    · intro m l hl c hc
      simp only at hl ⊢
      rw [dLookup_dAppendAt] at hl
      rw [dLookup_dInsert]
      by_cases hm : lid = m
      · subst hm
        rw [if_pos rfl, ho] at hl
        simp only [Option.map_some', Option.some.injEq] at hl
        subst hl
        rcases List.mem_append.mp hc with hc0 | hc1
        · have hmc := hg.inv_mc lid l0 ho c hc0
          by_cases hcl : lid = c
          · rw [if_pos hcl]
          · rw [if_neg hcl]
            exact hmc
        · simp only [List.mem_singleton] at hc1
          subst hc1
          rw [if_pos rfl]
      · rw [if_neg hm] at hl
        have hmc := hg.inv_mc m l hl c hc
        by_cases hcl : lid = c
        · subst hcl
          rcases hg.b1 lid m hmc with h1 | h2
          · exact absurd h1.symm hm
          · exact absurd (hks lid hlid) (not_lt.mpr h2)
        · rw [if_neg hcl]
          exact hmc
    · intro k v hl
      simp only at hl ⊢
      rw [dLookup_dInsert] at hl
      by_cases hk : lid = k
      · rw [if_pos hk] at hl
        simp only [Option.some.injEq] at hl
        subst hl
        refine ⟨l0 ++ [lid], ?_, ?_⟩
        · rw [dLookup_dAppendAt, if_pos rfl, ho]
          rfl
        · subst hk
          exact List.mem_append.mpr (Or.inr (by simp))
      · rw [if_neg hk] at hl
        obtain ⟨l, hml, hkl⟩ := hg.inv_cm k v hl
        by_cases hv : lid = v
        · subst hv
          rw [ho] at hml
          simp only [Option.some.injEq] at hml
          subst hml
          refine ⟨l0 ++ [lid], ?_, List.mem_append.mpr (Or.inl hkl)⟩
          rw [dLookup_dAppendAt, if_pos rfl, ho]
          rfl
        · refine ⟨l, ?_, hkl⟩
          rw [dLookup_dAppendAt, if_neg hv]
          exact hml
    · intro k v hl
      simp only at hl
      rw [dLookup_dInsert] at hl
      by_cases hk : lid = k
      · rw [if_pos hk] at hl
        simp only [Option.some.injEq] at hl
        exact Or.inl (hl ▸ hk)
      · rw [if_neg hk] at hl
        exact hg.b1 k v hl
    · intro m l hl c hc
      simp only at hl ⊢
      rw [dLookup_dAppendAt] at hl
      by_cases hm : lid = m
      · subst hm
        rw [if_pos rfl, ho] at hl
        simp only [Option.map_some', Option.some.injEq] at hl
        subst hl
        rcases List.mem_append.mp hc with hc0 | hc1
        · exact hg.b2 lid l0 ho c hc0
        · simp only [List.mem_singleton] at hc1
          subst hc1
          exact Or.inl rfl
      · rw [if_neg hm] at hl
        exact hg.b2 m l hl c hc
    · intro k hk
      simp only at hk ⊢
      rw [dContains_dInsert]
      rcases hg.lines_cov k hk with h1 | h2 | h3
      · exact Or.inl (by simp [h1])
      · rcases List.mem_cons.mp h2 with h4 | h5
        · exact Or.inl (by simp [h4])
        · exact Or.inr (Or.inl h5)
      · exact Or.inr (Or.inr h3)
  · have hstep : buildStep st (lid, s) =
        { List.foldl (childStep lid (motherScanRemove st.members lid).1)
            { st with members := (motherScanRemove st.members lid).2 }
            (childPairs (dedupAdj (sortByT s))) with
          toRemove :=
            (List.foldl (childStep lid (motherScanRemove st.members lid).1)
              { st with members := (motherScanRemove st.members lid).2 }
              (childPairs (dedupAdj (sortByT s)))).toRemove ++ [lid] } := by
      unfold buildStep
      rw [if_neg hd]
    rw [hstep]
    have hg1 : Good { st with members := (motherScanRemove st.members lid).2 }
        base ks (lid :: rem) :=
      ⟨hg.keys_m2c, hg.base_le, hg.inv_mc, hg.inv_cm, hg.b1, hg.b2,
        hg.lines_cov⟩
    exact good_toRemove_append
      (childLoop_good hks hlid (childPairs (dedupAdj (sortByT s))) _ hg1)

theorem buildLoop_good {base : Nat} {ks : List Nat}
    (hks : ∀ k ∈ ks, k < base) :
    ∀ (es : List (Nat × List (ℚ × Nat))) (rem : List Nat) (st : BCState),
    (∀ k ∈ keysOf es, k ∈ ks) →
    Good st base ks (keysOf es ++ rem) →
    Good (List.foldl buildStep st es) base ks rem := by
  intro es
  induction es with
  | nil => exact fun rem st _ hg => hg
  | cons e es ih =>
    intro rem st hmem hg
    simp only [List.foldl_cons]
    have he1 : e.1 ∈ ks := hmem e.1 (by simp [keysOf])
    have hg1 : Good (buildStep st e) base ks (keysOf es ++ rem) := by
      apply buildStep_good hks he1
      have : keysOf (e :: es) ++ rem = e.1 :: (keysOf es ++ rem) := by
        simp [keysOf]
      rw [this] at hg
      exact hg
    exact ih rem (buildStep st e)
      (fun k hk => hmem k (by simp only [keysOf, List.map_cons, List.mem_cons]; exact Or.inr hk))
      hg1

/-! ### The mother-removal filter and key decomposition -/

theorem dLookup_filter_remove (m : LinesDict) (R : List Nat) (k : Nat) :
    dLookup (m.filter (fun kv => decide (kv.1 ∉ R))) k =
      if k ∈ R then none else dLookup m k := by
  induction m with
  | nil => simp [dLookup]
  | cons kv rest ih =>
    by_cases hr : kv.1 ∈ R
    · rw [List.filter_cons_of_neg (by simp [hr]), ih]
      by_cases hk : k ∈ R
      · simp [hk]
      · rw [if_neg hk, if_neg hk]
        simp only [dLookup]
        rw [if_neg (fun he : kv.1 = k => hk (he ▸ hr))]
    · rw [List.filter_cons_of_pos (by simp [hr])]
      simp only [dLookup]
      by_cases hk : kv.1 = k
      · simp only [if_pos hk]
        rw [if_neg (show ¬ k ∈ R from hk ▸ hr)]
      · simp only [if_neg hk]
        exact ih

theorem assoc_split {α : Type} {m : List (Nat × α)} {k : Nat}
    (h : k ∈ keysOf m) :
    ∃ (pre : List (Nat × α)) (v : α) (post : List (Nat × α)),
      m = pre ++ (k, v) :: post := by
  induction m with
  | nil => simp [keysOf] at h
  | cons kv rest ih =>
    by_cases hk : kv.1 = k
    · exact ⟨[], kv.2, rest, by
        simp only [List.nil_append]
        rw [← hk]⟩
    · have : k ∈ keysOf rest := by
        simp only [keysOf, List.map_cons, List.mem_cons] at h
        rcases h with h1 | h2
        · exact absurd h1.symm hk
        · exact h2
      obtain ⟨pre, v, post, hsplit⟩ := ih this
      exact ⟨kv :: pre, v, post, by rw [hsplit]; rfl⟩

/-! ### Summary of `buildChildren` -/

theorem memberFact_congr {mm : Option MemberInfo} {ms ms' : MembersDict}
    {c : Nat} (he : dLookup ms' c = dLookup ms c)
    (h : memberFact mm ms c) : memberFact mm ms' c := by
  unfold memberFact at h ⊢
  cases mm with
  | some mi => exact he.trans h
  | none => exact he.trans h

/-- Global facts about the `buildChildren` output: stable mother keys, the
two lineage maps are mutually inverse, mothers live below `base` and children
in `[base, nextId)`, every surviving line id is claimed in `child_to_mother`,
and the member dictionary stays well-formed. -/
theorem buildChildren_spec (lines : LinesDict) (members : MembersDict)
    (splits : SplitsDict) (base : Nat)
    (Hnd : (keysOf lines).Nodup)
    (Hkeys : keysOf splits = keysOf lines)
    (hbase : ∀ k ∈ keysOf lines, k < base) :
    keysOf (buildChildren lines members splits base).m2c = keysOf lines ∧
    base ≤ (buildChildren lines members splits base).nextId ∧
    (∀ m l, dLookup (buildChildren lines members splits base).m2c m = some l →
      ∀ c ∈ l, dLookup (buildChildren lines members splits base).c2m c = some m) ∧
    (∀ k v, dLookup (buildChildren lines members splits base).c2m k = some v →
      ∃ l, dLookup (buildChildren lines members splits base).m2c v = some l ∧ k ∈ l) ∧
    (∀ k v, dLookup (buildChildren lines members splits base).c2m k = some v →
      v = k ∨ base ≤ k) ∧
    (∀ m l, dLookup (buildChildren lines members splits base).m2c m = some l →
      ∀ c ∈ l, c = m ∨ (base ≤ c ∧ c < (buildChildren lines members splits base).nextId)) ∧
    (∀ k, dContains (buildChildren lines members splits base).lines k = true →
      dContains (buildChildren lines members splits base).c2m k = true) := by
  set st0 : BCState :=
    { lines := lines, members := members, m2c := initMother lines,
      c2m := [], nextId := base, toRemove := [] } with hst0
  have hg0 : Good st0 base (keysOf lines) (keysOf splits ++ []) := by
    refine ⟨keysOf_initMother lines Hnd, le_refl _, ?_, ?_, ?_, ?_, ?_⟩
    · intro m l hl c hc
      rw [dLookup_initMother] at hl
      by_cases hm : m ∈ keysOf lines
      · rw [if_pos hm] at hl
        simp only [Option.some.injEq] at hl
        subst hl
        simp at hc
      · rw [if_neg hm] at hl
        exact Option.noConfusion hl
    · intro k v hl
      exact Option.noConfusion hl
    · intro k v hl
      exact Option.noConfusion hl
    · intro m l hl c hc
      rw [dLookup_initMother] at hl
      by_cases hm : m ∈ keysOf lines
      · rw [if_pos hm] at hl
        simp only [Option.some.injEq] at hl
        subst hl
        simp at hc
      · rw [if_neg hm] at hl
        exact Option.noConfusion hl
    · intro k hk
      refine Or.inr (Or.inl ?_)
      rw [List.append_nil, Hkeys]
      exact dContains_iff_mem_keys.mp hk
  have hgF : Good (List.foldl buildStep st0 splits) base (keysOf lines) [] :=
    buildLoop_good hbase splits [] st0 (fun k hk => Hkeys ▸ hk) hg0
  have hbc : buildChildren lines members splits base =
      { List.foldl buildStep st0 splits with
        lines := (List.foldl buildStep st0 splits).lines.filter
          (fun kv => decide (kv.1 ∉ (List.foldl buildStep st0 splits).toRemove)) } := by
    unfold buildChildren
    rfl
  rw [hbc]
  refine ⟨hgF.keys_m2c, hgF.base_le, hgF.inv_mc, hgF.inv_cm, hgF.b1, hgF.b2, ?_⟩
  intro k hk
  simp only [dContains] at hk
  rw [dLookup_filter_remove] at hk
  by_cases hr : k ∈ (List.foldl buildStep st0 splits).toRemove
  · rw [if_pos hr] at hk
    exact absurd hk (by simp)
  · rw [if_neg hr] at hk
    have hcont : dContains (List.foldl buildStep st0 splits).lines k = true := by
      simp only [dContains]
      exact hk
    rcases hgF.lines_cov k hcont with h1 | h2 | h3
    · exact h1
    · simp at h2
    · exact absurd h3 hr

/-- Per-mother summary of `buildChildren`: an unsplit line keeps itself as its
only child and survives; a split mother is removed from the line collection,
its member record is gone, and its entry lists fresh child ids, each mapped
back to the mother and carrying the inherited member record (or none when the
mother had no member). -/
theorem buildChildren_mother (lines : LinesDict) (members : MembersDict)
    (splits : SplitsDict) (base : Nat)
    (Hnd : (keysOf lines).Nodup)
    (Hkeys : keysOf splits = keysOf lines)
    (hbase : ∀ k ∈ keysOf lines, k < base)
    (HMI : MembersInv members base)
    (lid : Nat) (hlid : lid ∈ keysOf lines) :
    (dLookup (buildChildren lines members splits base).m2c lid = some [lid] ∧
     dLookup (buildChildren lines members splits base).members lid =
       dLookup members lid ∧
     dContains (buildChildren lines members splits base).lines lid = true) ∨
    (∃ newIds : List Nat,
      dLookup (buildChildren lines members splits base).m2c lid = some newIds ∧
      dContains (buildChildren lines members splits base).lines lid = false ∧
      dLookup (buildChildren lines members splits base).members lid = none ∧
      ∀ c ∈ newIds, base ≤ c ∧
        dLookup (buildChildren lines members splits base).c2m c = some lid ∧
        memberFact (dLookup members lid)
          (buildChildren lines members splits base).members c) := by
  set st0 : BCState :=
    { lines := lines, members := members, m2c := initMother lines,
      c2m := [], nextId := base, toRemove := [] } with hst0
  have hMI0 : MembersInv st0.members st0.nextId := HMI
  have hlid2 : lid ∈ keysOf splits := Hkeys ▸ hlid
  obtain ⟨pre, s, post, hsplit⟩ := assoc_split hlid2
  have hndk : (keysOf splits).Nodup := by rw [Hkeys]; exact Hnd
  have hndparts : lid ∉ keysOf pre ∧ lid ∉ keysOf post := by
    rw [hsplit] at hndk
    simp only [keysOf, List.map_append, List.map_cons] at hndk
    have h1 := List.Nodup.of_append_right hndk
    rw [List.nodup_cons] at h1
    constructor
    · intro hmem
      exact (List.disjoint_of_nodup_append hndk) hmem (by simp)
    · exact h1.1
  have hfold : List.foldl buildStep st0 splits =
      List.foldl buildStep
        (buildStep (List.foldl buildStep st0 pre) (lid, s)) post := by
    rw [hsplit, List.foldl_append, List.foldl_cons]
  obtain ⟨ple, ptr1, _, pm2c, pcm, pln, pMI⟩ := buildLoop_frame pre st0 hMI0
  set stPre : BCState := List.foldl buildStep st0 pre with hstPre
  have hlidbase : lid < base := hbase lid hlid
  have hlidlt : lid < stPre.nextId := lt_of_lt_of_le hlidbase ple
  have hm2cPre : dLookup stPre.m2c lid = some [] := by
    rw [pm2c lid hndparts.1]
    rw [dLookup_initMother, if_pos hlid]
  have hmemPre : dLookup stPre.members lid = dLookup members lid :=
    (pcm lid hndparts.1 hlidbase).2
  have hlinesPre : dLookup stPre.lines lid = dLookup lines lid :=
    pln lid hlidbase
  have htrPre : lid ∉ stPre.toRemove := by
    intro hmem
    rcases ptr1 lid hmem with h1 | h2
    · simp at h1
    · exact hndparts.1 h2
  have hlines0 : (dLookup lines lid).isSome := dLookup_isSome_of_mem_keys hlid
  -- the filter shape of the final result
  have hbc : buildChildren lines members splits base =
      { List.foldl buildStep st0 splits with
        lines := (List.foldl buildStep st0 splits).lines.filter
          (fun kv => decide (kv.1 ∉ (List.foldl buildStep st0 splits).toRemove)) } := by
    unfold buildChildren
    rfl
  by_cases hd : (dedupAdj (sortByT s)).length ≤ 2
  · left
    have hmid : buildStep stPre (lid, s) =
        { stPre with m2c := dAppendAt stPre.m2c lid lid,
                     c2m := dInsert stPre.c2m lid lid } := buildStep_self hd
    have hMImid : MembersInv (buildStep stPre (lid, s)).members
        (buildStep stPre (lid, s)).nextId := by
      rw [hmid]; exact pMI
    obtain ⟨qle, qtr1, _, qm2c, qcm, qln, _⟩ :=
      buildLoop_frame post (buildStep stPre (lid, s)) hMImid
    have hmidnext : (buildStep stPre (lid, s)).nextId = stPre.nextId := by
      rw [hmid]
    have hlidlt2 : lid < (buildStep stPre (lid, s)).nextId := by
      rw [hmidnext]; exact hlidlt
    have hF1 : dLookup (List.foldl buildStep st0 splits).m2c lid = some [lid] := by
      rw [hfold, qm2c lid hndparts.2, hmid]
      simp only
      rw [dLookup_dAppendAt, if_pos rfl, hm2cPre]
      rfl
    have hF2 : dLookup (List.foldl buildStep st0 splits).members lid =
        dLookup members lid := by
      rw [hfold, (qcm lid hndparts.2 hlidlt2).2, hmid]
      simp only
      exact hmemPre
    have hF3 : dLookup (List.foldl buildStep st0 splits).lines lid =
        dLookup lines lid := by
      rw [hfold, qln lid hlidlt2, hmid]
      simp only
      exact hlinesPre
    have hF4 : lid ∉ (List.foldl buildStep st0 splits).toRemove := by
      rw [hfold]
      intro hmem
      rcases qtr1 lid hmem with h1 | h2
      · rw [hmid] at h1
        exact htrPre h1
      · exact hndparts.2 h2
    rw [hbc]
    refine ⟨hF1, hF2, ?_⟩
    simp only [dContains]
    rw [dLookup_filter_remove, if_neg hF4, hF3]
    exact hlines0
  · right
    obtain ⟨sle, str, _, _, _, smemnone, _, sMI, newIds, sm2c, schild⟩ :=
      @buildStep_split stPre lid s hd pMI hlidlt
    obtain ⟨qle, qtr1, qtr2, qm2c, qcm, qln, _⟩ :=
      buildLoop_frame post (buildStep stPre (lid, s)) sMI
    have hF1 : dLookup (List.foldl buildStep st0 splits).m2c lid =
        some newIds := by
      rw [hfold, qm2c lid hndparts.2, sm2c, hm2cPre]
      rfl
    have hF2 : dLookup (List.foldl buildStep st0 splits).members lid = none := by
      rw [hfold, (qcm lid hndparts.2
        (lt_of_lt_of_le hlidlt sle)).2]
      exact smemnone
    have hF4 : lid ∈ (List.foldl buildStep st0 splits).toRemove := by
      rw [hfold]
      apply qtr2
      rw [str]
      exact List.mem_append.mpr (Or.inr (by simp))
    rw [hbc]
    refine ⟨newIds, hF1, ?_, hF2, ?_⟩
    · simp only [dContains]
      rw [dLookup_filter_remove, if_pos hF4]
      rfl
    · intro c hc
      obtain ⟨hcle, hclt, hccm, hcmf⟩ := schild c hc
      have hcbase : base ≤ c := le_trans ple hcle
      have hcnotpost : c ∉ keysOf post := by
        intro hmem
        have : c ∈ keysOf splits := by
          rw [hsplit]
          simp only [keysOf, List.map_append, List.map_cons, List.mem_append,
            List.mem_cons]
          exact Or.inr (Or.inr hmem)
        have := hbase c (Hkeys ▸ this)
        exact absurd this (not_lt.mpr hcbase)
      refine ⟨hcbase, ?_, ?_⟩
      · rw [hfold, (qcm c hcnotpost hclt).1]
        exact hccm
      · rw [hmemPre] at hcmf
        apply memberFact_congr ?_ hcmf
        rw [hfold]
        exact (qcm c hcnotpost hclt).2

/-! ### The augmenter: after `buildChildren` every line is already claimed,
so the candidate scan never attaches anything and only the mother
self-mapping survives. -/

theorem lineInfoList_keys {nodes : NodesDict} :
    ∀ {l : LinesDict} {info : List (Nat × LineGeom)},
    lineInfoList nodes l = some info → keysOf info = keysOf l := by
  intro l
  induction l with
  | nil =>
    intro info h
    simp only [lineInfoList, Option.some.injEq] at h
    subst h; rfl
  | cons kv rest ih =>
    intro info h
    obtain ⟨lid, ln⟩ := kv
    simp only [lineInfoList] at h
    rcases h1 : dLookup nodes ln.Ni with _ | ni
    · rw [h1] at h; exact Option.noConfusion h
    rcases h2 : dLookup nodes ln.Nj with _ | nj
    · rw [h1, h2] at h; exact Option.noConfusion h
    rw [h1, h2] at h
    rcases h3 : lineInfoList nodes rest with _ | acc
    · rw [h3] at h; exact Option.noConfusion h
    rw [h3] at h
    simp only [Option.some.injEq] at h
    subst h
    simp only [keysOf, List.map_cons, List.cons.injEq, true_and]
    exact ih h3

theorem dContains_dAppendAt {α : Type} (m : List (Nat × List α)) (k j : Nat)
    (v : α) : dContains (dAppendAt m k v) j = dContains m j := by
  rcases hb : dContains m j with _ | _
  · rw [dContains_false_iff] at hb ⊢
    rw [dLookup_dAppendAt]
    by_cases hk : k = j
    · rw [if_pos hk, hk, hb]; rfl
    · rw [if_neg hk]; exact hb
  · rw [dContains_true_iff] at hb ⊢
    obtain ⟨w, hw⟩ := hb
    rw [dLookup_dAppendAt]
    by_cases hk : k = j
    · rw [if_pos hk, hk, hw]
      exact ⟨_, rfl⟩
    · rw [if_neg hk]; exact ⟨w, hw⟩

theorem candStep_noop {a b : ℚ × ℚ} {z_m tol : ℚ} {mother : Nat}
    {maps : MotherMap × ChildMap} {cand : Nat × LineGeom}
    (hc : dContains maps.2 cand.1 = true) :
    candStep a b z_m tol mother maps cand = maps := by
  unfold candStep
  by_cases he : cand.1 = mother
  · rw [if_pos he]
  · rw [if_neg he, if_pos hc]

theorem candLoop_noop {a b : ℚ × ℚ} {z_m tol : ℚ} {mother : Nat} :
    ∀ (info : List (Nat × LineGeom)) (maps : MotherMap × ChildMap),
    (∀ kv ∈ info, dContains maps.2 kv.1 = true) →
    List.foldl (candStep a b z_m tol mother) maps info = maps := by
  intro info
  induction info with
  | nil => exact fun maps _ => rfl
  | cons kv rest ih =>
    intro maps h
    simp only [List.foldl_cons]
    rw [candStep_noop (h kv (List.mem_cons_self _ _))]
    exact ih maps (fun kv2 h2 => h kv2 (List.mem_cons_of_mem _ h2))

theorem augMotherStep_allmapped (info : List (Nat × LineGeom)) (tol : ℚ)
    (maps : MotherMap × ChildMap) (mother : Nat)
    (hcand : ∀ kv ∈ info, dContains maps.2 kv.1 = true)
    (hcont : dContains maps.1 mother = true) :
    augMotherStep info tol maps mother =
      ((if mother ∈ (dLookup maps.1 mother).getD [] then maps.1
        else dAppendAt maps.1 mother mother),
       (if dContains maps.2 mother then maps.2
        else dInsert maps.2 mother mother)) := by
  unfold augMotherStep
  rw [if_pos hcont]
  apply candLoop_noop
  intro kv hkv
  by_cases hm : dContains maps.2 mother
  · rw [if_pos hm]
    exact hcand kv hkv
  · rw [if_neg hm, dContains_dInsert]
    rw [hcand kv hkv]
    rfl

theorem augLoop_spec (info : List (Nat × LineGeom)) (tol : ℚ) :
    ∀ (mothers : List Nat) (maps : MotherMap × ChildMap),
    mothers.Nodup →
    (∀ kv ∈ info, dContains maps.2 kv.1 = true) →
    (∀ m ∈ mothers, dContains maps.1 m = true) →
    (∀ k, k ∉ mothers →
      dLookup (List.foldl (augMotherStep info tol) maps mothers).1 k =
        dLookup maps.1 k ∧
      dLookup (List.foldl (augMotherStep info tol) maps mothers).2 k =
        dLookup maps.2 k) ∧
    (∀ m ∈ mothers, ∃ l, dLookup maps.1 m = some l ∧
      dLookup (List.foldl (augMotherStep info tol) maps mothers).1 m =
        some (if m ∈ l then l else l ++ [m]) ∧
      dLookup (List.foldl (augMotherStep info tol) maps mothers).2 m =
        (if (dLookup maps.2 m).isSome then dLookup maps.2 m else some m)) := by
  intro mothers
  induction mothers with
  | nil =>
    intro maps _ _ _
    exact ⟨fun k _ => ⟨rfl, rfl⟩, fun m hm => absurd hm (by simp)⟩
  | cons m0 rest ih =>
    intro maps hnd hcand hcont
    have hc0 : dContains maps.1 m0 = true := hcont m0 (by simp)
    obtain ⟨l0, hl0⟩ := dContains_true_iff.mp hc0
    have hstep := augMotherStep_allmapped info tol maps m0 hcand hc0
    set maps1 := augMotherStep info tol maps m0 with hmaps1
    have hm2c1 : ∀ k, k ≠ m0 → dLookup maps1.1 k = dLookup maps.1 k := by
      intro k hk
      rw [hstep]
      by_cases hmem : m0 ∈ (dLookup maps.1 m0).getD []
      · rw [if_pos hmem]
      · rw [if_neg hmem]
        simp only
        rw [dLookup_dAppendAt, if_neg (fun he : m0 = k => hk he.symm)]
    have hc2m1 : ∀ k, k ≠ m0 → dLookup maps1.2 k = dLookup maps.2 k := by
      intro k hk
      rw [hstep]
      by_cases hmem : dContains maps.2 m0
      · rw [if_pos hmem]
      · rw [if_neg hmem]
        simp only
        rw [dLookup_dInsert, if_neg (fun he : m0 = k => hk he.symm)]
    have hm2c1self : dLookup maps1.1 m0 =
        some (if m0 ∈ l0 then l0 else l0 ++ [m0]) := by
      rw [hstep]
      simp only [hl0, Option.getD_some]
      by_cases hmem : m0 ∈ l0
      · rw [if_pos hmem, if_pos hmem]
        exact hl0
      · rw [if_neg hmem, if_neg hmem]
        rw [dLookup_dAppendAt, if_pos rfl, hl0]
        rfl
    have hc2m1self : dLookup maps1.2 m0 =
        (if (dLookup maps.2 m0).isSome then dLookup maps.2 m0 else some m0) := by
      rw [hstep]
      by_cases hmem : dContains maps.2 m0
      · rw [if_pos hmem]
        unfold dContains at hmem
        rw [if_pos hmem]
      · rw [if_neg hmem]
        rw [dLookup_dInsert, if_pos rfl]
        unfold dContains at hmem
        rw [if_neg hmem]
    have hnd2 := List.nodup_cons.mp hnd
    have hcand1 : ∀ kv ∈ info, dContains maps1.2 kv.1 = true := by
      intro kv hkv
      rw [hstep]
      by_cases hmem : dContains maps.2 m0
      · rw [if_pos hmem]; exact hcand kv hkv
      · rw [if_neg hmem]
        simp only
        rw [dContains_dInsert, hcand kv hkv]
        rfl
    have hcont1 : ∀ m ∈ rest, dContains maps1.1 m = true := by
      intro m hm
      have hne : m ≠ m0 := fun he => hnd2.1 (he ▸ hm)
      rw [dContains_true_iff]
      rw [hm2c1 m hne]
      exact dContains_true_iff.mp (hcont m (List.mem_cons_of_mem _ hm))
    obtain ⟨ihframe, ihself⟩ := ih maps1 hnd2.2 hcand1 hcont1
    simp only [List.foldl_cons]
    constructor
    · intro k hk
      have hk0 : k ≠ m0 := fun he => hk (by simp [he])
      have hkr : k ∉ rest := fun hm => hk (List.mem_cons_of_mem _ hm)
      obtain ⟨f1, f2⟩ := ihframe k hkr
      exact ⟨f1.trans (hm2c1 k hk0), f2.trans (hc2m1 k hk0)⟩
    · intro m hm
      rcases List.mem_cons.mp hm with h1 | h2
      · subst h1
        obtain ⟨f1, f2⟩ := ihframe m hnd2.1
        exact ⟨l0, hl0, f1.trans hm2c1self, f2.trans hc2m1self⟩
      · obtain ⟨l, hl, hr1, hr2⟩ := ihself m h2
        have hne : m ≠ m0 := fun he => hnd2.1 (he ▸ h2)
        rw [hm2c1 m hne] at hl
        refine ⟨l, hl, hr1, ?_⟩
        rw [hr2, hc2m1 m hne]

theorem augment_destruct {nodes : NodesDict} {lines : LinesDict}
    {m2c : MotherMap} {c2m : ChildMap} {tol : ℚ} {out : MotherMap × ChildMap}
    (h : augmentMappingsWithExistingSegments nodes lines m2c c2m tol = some out) :
    ∃ info, lineInfoList nodes lines = some info ∧
      out = List.foldl (augMotherStep info tol) (m2c, c2m) (keysOf m2c) := by
  unfold augmentMappingsWithExistingSegments at h
  rcases hi : lineInfoList nodes lines with _ | info
  · rw [hi] at h; exact Option.noConfusion h
  · rw [hi] at h
    simp only [Option.some.injEq] at h
    exact ⟨info, rfl, h.symm⟩

theorem buildChildren_membersInv (lines : LinesDict) (members : MembersDict)
    (splits : SplitsDict) (base : Nat) (HMI : MembersInv members base) :
    MembersInv (buildChildren lines members splits base).members
      (buildChildren lines members splits base).nextId := by
  set st0 : BCState :=
    { lines := lines, members := members, m2c := initMother lines,
      c2m := [], nextId := base, toRemove := [] } with hst0
  obtain ⟨_, _, _, _, _, _, fMI⟩ := buildLoop_frame splits st0 HMI
  exact fMI

/-! ### The mapping finalizer is a no-op after augmentation -/

theorem finalizeStep_noop {new_lines : LinesDict} {maps : MotherMap × ChildMap}
    {lid : Nat} {l : List Nat} (hl : dLookup maps.1 lid = some l)
    (hne : l ≠ []) : finalizeStep new_lines maps lid = maps := by
  unfold finalizeStep
  have hc : dContains maps.1 lid = true := dContains_true_iff.mpr ⟨l, hl⟩
  rw [if_pos hc]
  rw [if_neg ?_]
  · intro hcond
    rw [hl] at hcond
    simp only [Option.getD_some] at hcond
    exact hne (List.isEmpty_iff.mp hcond.1)

theorem finalizeMappings_noop {new_lines : LinesDict} :
    ∀ (ks : List Nat) (maps : MotherMap × ChildMap),
    (∀ lid ∈ ks, ∃ l, dLookup maps.1 lid = some l ∧ l ≠ []) →
    List.foldl (finalizeStep new_lines) maps ks = maps := by
  intro ks
  induction ks with
  | nil => exact fun maps _ => rfl
  | cons lid ks ih =>
    intro maps h
    simp only [List.foldl_cons]
    obtain ⟨l, hl, hne⟩ := h lid (by simp)
    rw [finalizeStep_noop hl hne]
    exact ih maps (fun lid2 h2 => h lid2 (List.mem_cons_of_mem _ h2))

/-! ### Destructuring a successful run of the entry point -/

theorem connect_destruct {nodes : NodesDict} {lines : LinesDict}
    {members : MembersDict} {tol : ℚ} {r : ConnectResult}
    (h : connect_lines_at_intersections nodes lines members tol = some r) :
    ∃ st : NodesDict × SplitsDict × Nat,
      collectIntersections nodes lines (initSplitParams lines) tol
        (if nodes.isEmpty then 1 else maxKey nodes + 1) = some st ∧
      ∃ maps : MotherMap × ChildMap,
        augmentMappingsWithExistingSegments st.1
          (buildChildren lines members st.2.1
            (if lines.isEmpty then 1 else maxKey lines + 1)).lines
          (buildChildren lines members st.2.1
            (if lines.isEmpty then 1 else maxKey lines + 1)).m2c
          (buildChildren lines members st.2.1
            (if lines.isEmpty then 1 else maxKey lines + 1)).c2m tol = some maps ∧
        r = { nodes := st.1,
              lines := (buildChildren lines members st.2.1
                (if lines.isEmpty then 1 else maxKey lines + 1)).lines,
              members := (buildChildren lines members st.2.1
                (if lines.isEmpty then 1 else maxKey lines + 1)).members,
              m2c := (List.foldl (finalizeStep (buildChildren lines members st.2.1
                (if lines.isEmpty then 1 else maxKey lines + 1)).lines)
                (maps.1, maps.2) (keysOf lines)).1,
              c2m := (List.foldl (finalizeStep (buildChildren lines members st.2.1
                (if lines.isEmpty then 1 else maxKey lines + 1)).lines)
                (maps.1, maps.2) (keysOf lines)).2 } := by
  unfold connect_lines_at_intersections at h
  rw [cloneNodes_eq, cloneLines_eq, cloneMembers_eq] at h
  simp only [] at h
  rcases hc : collectIntersections nodes lines (initSplitParams lines) tol
      (if nodes.isEmpty then 1 else maxKey nodes + 1) with _ | st
  · rw [hc] at h; exact Option.noConfusion h
  rw [hc] at h
  simp only [] at h
  refine ⟨st, rfl, ?_⟩
  rcases ha : augmentMappingsWithExistingSegments st.1
      (buildChildren lines members st.2.1
        (if lines.isEmpty then 1 else maxKey lines + 1)).lines
      (buildChildren lines members st.2.1
        (if lines.isEmpty then 1 else maxKey lines + 1)).m2c
      (buildChildren lines members st.2.1
        (if lines.isEmpty then 1 else maxKey lines + 1)).c2m tol with _ | maps
  · rw [ha] at h; exact Option.noConfusion h
  rw [ha] at h
  simp only [Option.some.injEq] at h
  refine ⟨maps, rfl, ?_⟩
  rw [← h]
  unfold finalizeMappings
  rfl

/-! ### The lineage maps of a successful run -/

/-- Central characterization of the lineage maps returned by
`connect_lines_at_intersections`: every original line id is a key of
`mother_to_children`, belongs to its own entry and maps to itself in
`child_to_mother`; membership in an entry and `child_to_mother` agree in both
directions; and every surviving line id is claimed in `child_to_mother`. -/
theorem connect_lineage_spec {nodes : NodesDict} {lines : LinesDict}
    {members : MembersDict} {tol : ℚ} {r : ConnectResult}
    (Hnd : (keysOf lines).Nodup)
    (h : connect_lines_at_intersections nodes lines members tol = some r) :
    (∀ lid ∈ keysOf lines, ∃ l, dLookup r.m2c lid = some l ∧ lid ∈ l ∧
      dLookup r.c2m lid = some lid) ∧
    (∀ m l, dLookup r.m2c m = some l → ∀ c ∈ l, dLookup r.c2m c = some m) ∧
    (∀ k v, dLookup r.c2m k = some v → ∃ l, dLookup r.m2c v = some l ∧ k ∈ l) ∧
    (∀ k, dContains r.lines k = true → dContains r.c2m k = true) := by
  obtain ⟨st, hcol, maps, haug, hr⟩ := connect_destruct h
  have hbase : ∀ k ∈ keysOf lines, k <
      (if lines.isEmpty then 1 else maxKey lines + 1) := by
    intro k hk
    have hne : lines.isEmpty = false := by
      cases lines with
      | nil => simp [keysOf] at hk
      | cons kv rest => rfl
    rw [hne]
    simp only [Bool.false_eq_true, if_false]
    exact Nat.lt_succ_of_le (mem_keys_le_maxKey hk)
  have Hkeys : keysOf st.2.1 = keysOf lines := by
    rw [collectIntersections_splits_keys hcol, keysOf_initSplitParams]
  obtain ⟨bkeys, bbase, binv_mc, binv_cm, bb1, bb2, bcov⟩ :=
    buildChildren_spec lines members st.2.1
      (if lines.isEmpty then 1 else maxKey lines + 1) Hnd Hkeys hbase
  set bc := buildChildren lines members st.2.1
    (if lines.isEmpty then 1 else maxKey lines + 1) with hbc_def
  obtain ⟨info, hinfo, hmaps⟩ := augment_destruct haug
  have hinfokeys : keysOf info = keysOf bc.lines := lineInfoList_keys hinfo
  have hcand : ∀ kv ∈ info, dContains bc.c2m kv.1 = true := by
    intro kv hkv
    apply bcov
    rw [dContains_iff_mem_keys, ← hinfokeys]
    exact List.mem_map_of_mem Prod.fst hkv
  have hmnd : (keysOf bc.m2c).Nodup := by rw [bkeys]; exact Hnd
  have hcont : ∀ m ∈ keysOf bc.m2c, dContains bc.m2c m = true :=
    fun m hm => dContains_iff_mem_keys.mpr hm
  obtain ⟨aframe, aself⟩ :=
    augLoop_spec info tol (keysOf bc.m2c) (bc.m2c, bc.c2m) hmnd hcand hcont
  rw [← hmaps] at aframe aself
  simp only [] at aframe aself
  -- facts about the augmented maps
  have hA1 : ∀ lid ∈ keysOf lines, ∃ l, dLookup maps.1 lid = some l ∧
      lid ∈ l ∧ dLookup maps.2 lid = some lid := by
    intro lid hlid
    have hlid2 : lid ∈ keysOf bc.m2c := bkeys ▸ hlid
    obtain ⟨l, hbl, hm2c, hc2m⟩ := aself lid hlid2
    refine ⟨if lid ∈ l then l else l ++ [lid], hm2c, ?_, ?_⟩
    · by_cases hmem : lid ∈ l
      · rw [if_pos hmem]; exact hmem
      · rw [if_neg hmem]; exact List.mem_append.mpr (Or.inr (by simp))
    · rw [hc2m]
      rcases hcb : dLookup bc.c2m lid with _ | v
      · simp
      · rcases bb1 lid v hcb with h1 | h2
        · simp [h1]
        · exact absurd (hbase lid hlid) (not_lt.mpr h2)
  have hmothers : ∀ m l, dLookup maps.1 m = some l → m ∈ keysOf bc.m2c := by
    intro m l hl
    by_cases hm : m ∈ keysOf bc.m2c
    · exact hm
    · rw [(aframe m hm).1] at hl
      exact absurd (mem_keys_of_dLookup hl) hm
  have hc2mOf : ∀ c m, dLookup bc.c2m c = some m → dLookup maps.2 c = some m := by
    intro c m hc
    by_cases hcm : c ∈ keysOf bc.m2c
    · obtain ⟨l, _, _, hc2m⟩ := aself c hcm
      rw [hc2m, hc]
      simp
    · rw [(aframe c hcm).2]
      exact hc
  have hA2 : ∀ m l, dLookup maps.1 m = some l → ∀ c ∈ l,
      dLookup maps.2 c = some m := by
    intro m l' hl' c hc
    have hm := hmothers m l' hl'
    obtain ⟨l, hbl, hm2c, hc2m⟩ := aself m hm
    rw [hm2c] at hl'
    simp only [Option.some.injEq] at hl'
    subst hl'
    by_cases hmem : m ∈ l
    · rw [if_pos hmem] at hc
      exact hc2mOf c m (binv_mc m l hbl c hc)
    · rw [if_neg hmem] at hc
      rcases List.mem_append.mp hc with hc1 | hc2
      · exact hc2mOf c m (binv_mc m l hbl c hc1)
      · simp only [List.mem_singleton] at hc2
        subst hc2
        rw [hc2m]
        rcases hcb : dLookup bc.c2m c with _ | v
        · simp
        · rcases bb1 c v hcb with h1 | h2
          · simp [h1]
          · have := hbase c (bkeys ▸ hm)
            exact absurd this (not_lt.mpr h2)
  have hentry_sub : ∀ v l, dLookup bc.m2c v = some l → ∃ l2,
      dLookup maps.1 v = some l2 ∧ ∀ x ∈ l, x ∈ l2 := by
    intro v l hvl
    have hv : v ∈ keysOf bc.m2c := mem_keys_of_dLookup hvl
    obtain ⟨l0, hbl0, hm2c, _⟩ := aself v hv
    rw [hvl] at hbl0
    simp only [Option.some.injEq] at hbl0
    subst hbl0
    refine ⟨if v ∈ l then l else l ++ [v], hm2c, ?_⟩
    intro x hx
    by_cases hmem : v ∈ l
    · rw [if_pos hmem]; exact hx
    · rw [if_neg hmem]; exact List.mem_append.mpr (Or.inl hx)
  have hA3 : ∀ k v, dLookup maps.2 k = some v → ∃ l,
      dLookup maps.1 v = some l ∧ k ∈ l := by
    intro k v hkv
    by_cases hk : k ∈ keysOf bc.m2c
    · obtain ⟨l0, hbl0, hm2c0, hc2m0⟩ := aself k hk
      rw [hc2m0] at hkv
      rcases hcb : dLookup bc.c2m k with _ | w
      · rw [hcb] at hkv
        simp only [Option.isSome_none, Bool.false_eq_true, if_false,
          Option.some.injEq] at hkv
        subst hkv
        refine ⟨if k ∈ l0 then l0 else l0 ++ [k], hm2c0, ?_⟩
        by_cases hmem : k ∈ l0
        · rw [if_pos hmem]; exact hmem
        · rw [if_neg hmem]; exact List.mem_append.mpr (Or.inr (by simp))
      · rw [hcb] at hkv
        simp only [Option.isSome_some, if_true, Option.some.injEq] at hkv
        subst hkv
        obtain ⟨l, hvl, hklmem⟩ := binv_cm k w hcb
        obtain ⟨l2, hl2, hsub⟩ := hentry_sub w l hvl
        exact ⟨l2, hl2, hsub k hklmem⟩
    · rw [(aframe k hk).2] at hkv
      obtain ⟨l, hvl, hklmem⟩ := binv_cm k v hkv
      obtain ⟨l2, hl2, hsub⟩ := hentry_sub v l hvl
      exact ⟨l2, hl2, hsub k hklmem⟩
  have hA4 : ∀ k, dContains bc.lines k = true → dContains maps.2 k = true := by
    intro k hk
    obtain ⟨v, hv⟩ := dContains_true_iff.mp (bcov k hk)
    exact dContains_true_iff.mpr ⟨v, hc2mOf k v hv⟩
  -- the finalizer is a no-op
  have hfin : List.foldl (finalizeStep bc.lines) (maps.1, maps.2)
      (keysOf lines) = (maps.1, maps.2) := by
    apply finalizeMappings_noop
    intro lid hlid
    obtain ⟨l, hl, hmem, _⟩ := hA1 lid hlid
    exact ⟨l, hl, fun he => by simp [he] at hmem⟩
  subst hr
  simp only [hfin]
  exact ⟨hA1, hA2, hA3, hA4⟩

theorem dLookup_of_mem_nodup {α : Type} {m : List (Nat × α)} {k : Nat}
    {v : α} (hnd : (keysOf m).Nodup) (hmem : (k, v) ∈ m) :
    dLookup m k = some v := by
  induction m with
  | nil => simp at hmem
  | cons kv rest ih =>
    rcases List.mem_cons.mp hmem with h1 | h2
    · subst h1
      simp [dLookup]
    · have hnd2 := List.nodup_cons.mp hnd
      have hkr : k ∈ keysOf rest := List.mem_map_of_mem Prod.fst h2
      have hne : kv.1 ≠ k := fun he => hnd2.1 (he ▸ hkr)
      simp only [dLookup, if_neg hne]
      exact ih hnd2.2 h2

/-- Member propagation of a successful run: when an original line `lid` was
split (it is gone from the returned line collection), no returned member
references it any more, and every other id in its `mother_to_children` entry
carries the inherited member record — a field-for-field copy when the mother
had a member, no record at all when it had none. -/
theorem connect_members_spec {nodes : NodesDict} {lines : LinesDict}
    {members : MembersDict} {tol : ℚ} {r : ConnectResult}
    (Hnd : (keysOf lines).Nodup)
    (HndM : (keysOf members).Nodup)
    (Hmem : ∀ mid mi, dLookup members mid = some mi →
      mi.line_id = mid ∧ mid ∈ keysOf lines)
    (h : connect_lines_at_intersections nodes lines members tol = some r)
    (lid : Nat) (hin : lid ∈ keysOf lines)
    (hout : dContains r.lines lid = false) :
    dLookup r.members lid = none ∧
    (∀ mid mi, dLookup r.members mid = some mi → mi.line_id ≠ lid) ∧
    (∀ l, dLookup r.m2c lid = some l → ∀ c ∈ l, c ≠ lid →
      memberFact (dLookup members lid) r.members c) := by
  obtain ⟨st, hcol, maps, haug, hr⟩ := connect_destruct h
  have hbase : ∀ k ∈ keysOf lines, k <
      (if lines.isEmpty then 1 else maxKey lines + 1) := by
    intro k hk
    have hne : lines.isEmpty = false := by
      cases lines with
      | nil => simp [keysOf] at hk
      | cons kv rest => rfl
    rw [hne]
    simp only [Bool.false_eq_true, if_false]
    exact Nat.lt_succ_of_le (mem_keys_le_maxKey hk)
  have Hkeys : keysOf st.2.1 = keysOf lines := by
    rw [collectIntersections_splits_keys hcol, keysOf_initSplitParams]
  have HMI : MembersInv members (if lines.isEmpty then 1 else maxKey lines + 1) := by
    refine ⟨?_, HndM, ?_⟩
    · intro kv hkv
      exact (Hmem kv.1 kv.2 (dLookup_of_mem_nodup HndM hkv)).1
    · intro mid hmid
      obtain ⟨mi, hmi⟩ := dContains_true_iff.mp (dContains_iff_mem_keys.mpr hmid)
      exact hbase mid (Hmem mid mi hmi).2
  obtain ⟨bkeys, bbase, binv_mc, binv_cm, bb1, bb2, bcov⟩ :=
    buildChildren_spec lines members st.2.1
      (if lines.isEmpty then 1 else maxKey lines + 1) Hnd Hkeys hbase
  set bc := buildChildren lines members st.2.1
    (if lines.isEmpty then 1 else maxKey lines + 1) with hbc_def
  have bcMI : MembersInv bc.members bc.nextId :=
    buildChildren_membersInv lines members st.2.1 _ HMI
  obtain ⟨info, hinfo, hmaps⟩ := augment_destruct haug
  have hinfokeys : keysOf info = keysOf bc.lines := lineInfoList_keys hinfo
  have hcand : ∀ kv ∈ info, dContains bc.c2m kv.1 = true := by
    intro kv hkv
    apply bcov
    rw [dContains_iff_mem_keys, ← hinfokeys]
    exact List.mem_map_of_mem Prod.fst hkv
  have hmnd : (keysOf bc.m2c).Nodup := by rw [bkeys]; exact Hnd
  have hcont : ∀ m ∈ keysOf bc.m2c, dContains bc.m2c m = true :=
    fun m hm => dContains_iff_mem_keys.mpr hm
  obtain ⟨aframe, aself⟩ :=
    augLoop_spec info tol (keysOf bc.m2c) (bc.m2c, bc.c2m) hmnd hcand hcont
  rw [← hmaps] at aframe aself
  simp only [] at aframe aself
  -- the finalizer is a no-op
  have hA1 : ∀ m ∈ keysOf lines, ∃ l, dLookup maps.1 m = some l ∧ m ∈ l := by
    intro m hm
    obtain ⟨l, hbl, hm2c, _⟩ := aself m (bkeys ▸ hm)
    refine ⟨if m ∈ l then l else l ++ [m], hm2c, ?_⟩
    by_cases hmem : m ∈ l
    · rw [if_pos hmem]; exact hmem
    · rw [if_neg hmem]; exact List.mem_append.mpr (Or.inr (by simp))
  have hfin : List.foldl (finalizeStep bc.lines) (maps.1, maps.2)
      (keysOf lines) = (maps.1, maps.2) := by
    apply finalizeMappings_noop
    intro m hm
    obtain ⟨l, hl, hmem⟩ := hA1 m hm
    exact ⟨l, hl, fun he => by simp [he] at hmem⟩
  -- the mother was split
  have houtbc : dContains bc.lines lid = false := by
    rw [hr] at hout
    exact hout
  rcases buildChildren_mother lines members st.2.1
      (if lines.isEmpty then 1 else maxKey lines + 1) Hnd Hkeys hbase HMI
      lid hin with hselfc | hsplitc
  · rw [hselfc.2.2] at houtbc
    exact absurd houtbc (by simp)
  obtain ⟨newIds, hm2c_bc, _, hmemnone, hchild⟩ := hsplitc
  -- the final entry of the mother
  obtain ⟨l0, hbl0, hm2c', _⟩ := aself lid (bkeys ▸ hin)
  rw [hm2c_bc] at hbl0
  simp only [Option.some.injEq] at hbl0
  subst hbl0
  have hlidnot : lid ∉ newIds := by
    intro hmem
    obtain ⟨hb, _, _⟩ := hchild lid hmem
    exact absurd (hbase lid hin) (not_lt.mpr hb)
  rw [if_neg hlidnot] at hm2c'
  have hrm2c : dLookup r.m2c lid = some (newIds ++ [lid]) := by
    rw [hr]
    simp only [hfin]
    exact hm2c'
  have hrmem : r.members = bc.members := by rw [hr]
  refine ⟨?_, ?_, ?_⟩
  · rw [hrmem]
    exact hmemnone
  · intro mid mi hmi heq
    rw [hrmem] at hmi
    have := bcMI.lookup_keyed hmi
    rw [heq] at this
    rw [← this] at hmi
    rw [hmemnone] at hmi
    exact Option.noConfusion hmi
  · intro l hl c hc hcne
    rw [hrm2c] at hl
    simp only [Option.some.injEq] at hl
    subst hl
    rcases List.mem_append.mp hc with hc1 | hc2
    · obtain ⟨_, _, hmf⟩ := hchild c hc1
      rw [hrmem]
      exact hmf
    · simp only [List.mem_singleton] at hc2
      exact absurd hc2 hcne

/-! ### A no-op run: no coplanar crossings -/

/-- Decidable per-pair skip predicate: the intersection collector ignores the
pair because the elevation gate fires or the plan intersection is empty.
When a lookup would fail the whole run fails, so the predicate is vacuously
true there. -/
def noHitPair (nodesD : NodesDict) (linesD : LinesDict) (tol : ℚ)
    (pr : Nat × Nat) : Bool :=
  match dLookup linesD pr.1, dLookup linesD pr.2 with
  | some li, some lj =>
    match dLookup nodesD li.Ni, dLookup nodesD li.Nj,
          dLookup nodesD lj.Ni, dLookup nodesD lj.Nj with
    | some nPi, some nPj, some nQi, some nQj =>
      decide (|(nPi.z + nPj.z) * (1/2) - (nQi.z + nQj.z) * (1/2)| >
        max tol (10 * tol)) ||
      (segmentIntersectionXY (nPi.x, nPi.y) (nPj.x, nPj.y) (nQi.x, nQi.y)
        (nQj.x, nQj.y) tol).isNone
    | _, _, _, _ => true
  | _, _ => true

theorem collectStep_of_noHit {linesD : LinesDict} {tol : ℚ}
    {st : NodesDict × SplitsDict × Nat} {pr : Nat × Nat}
    (hnh : noHitPair st.1 linesD tol pr = true) :
    collectStep linesD tol st pr = some st ∨
    collectStep linesD tol st pr = none := by
  unfold noHitPair at hnh
  unfold collectStep
  rcases hA : dLookup linesD pr.1 with _ | li
  · exact Or.inr rfl
  rw [hA] at hnh
  rcases hB : dLookup linesD pr.2 with _ | lj
  · exact Or.inr rfl
  rw [hB] at hnh
  simp only [] at hnh ⊢
  rcases h3 : dLookup st.1 li.Ni with _ | nPi
  · exact Or.inr rfl
  rw [h3] at hnh
  rcases h4 : dLookup st.1 li.Nj with _ | nPj
  · exact Or.inr rfl
  rw [h4] at hnh
  rcases h5 : dLookup st.1 lj.Ni with _ | nQi
  · exact Or.inr rfl
  rw [h5] at hnh
  rcases h6 : dLookup st.1 lj.Nj with _ | nQj
  · exact Or.inr rfl
  rw [h6] at hnh
  simp only [] at hnh ⊢
  left
  rcases Bool.or_eq_true_iff.mp hnh with hz | hs
  · rw [if_pos (of_decide_eq_true hz)]
  · by_cases hzc : |(nPi.z + nPj.z) * (1/2) - (nQi.z + nQj.z) * (1/2)| >
        max tol (10 * tol)
    · rw [if_pos hzc]
    · rw [if_neg hzc, Option.isNone_iff_eq_none.mp hs]

theorem collectLoop_noHit {linesD : LinesDict} {tol : ℚ} :
    ∀ (ps : List (Nat × Nat)) (st st1 : NodesDict × SplitsDict × Nat),
    collectLoop linesD tol ps st = some st1 →
    (∀ p ∈ ps, noHitPair st.1 linesD tol p = true) →
    st1 = st := by
  intro ps
  induction ps with
  | nil =>
    intro st st1 h _
    simp only [collectLoop, Option.some.injEq] at h
    exact h.symm
  | cons p ps ih =>
    intro st st1 h hnh
    simp only [collectLoop] at h
    rcases hs : collectStep linesD tol st p with _ | st2
    · rw [hs] at h
      exact absurd h (by simp)
    rw [hs] at h
    rcases collectStep_of_noHit (hnh p (by simp)) with he | he
    · rw [hs] at he
      simp only [Option.some.injEq] at he
      subst he
      exact ih st2 st1 h (fun q hq => hnh q (List.mem_cons_of_mem _ hq))
    · rw [hs] at he
      exact Option.noConfusion he

/-- The seeded split list of a line always collapses to at most two entries.
-/
theorem seed_dedup_short (a b : Nat) :
    (dedupAdj (sortByT [((0 : ℚ), a), ((1 : ℚ), b)])).length ≤ 2 := by
  have h01 : ((0 : ℚ) ≤ 1) := by norm_num
  simp only [sortByT, insertByT, if_pos h01, dedupAdj, dedupAux]
  by_cases hba : b = a
  · rw [if_pos hba]
    simp
  · rw [if_neg hba]
    simp [dedupAux]

/-- Running the per-line fold on split lists that all dedup to at most two
entries leaves lines, members and removal marks unchanged and self-maps each
line. -/
theorem buildLoop_short :
    ∀ (es : SplitsDict) (st : BCState),
    (∀ e ∈ es, (dedupAdj (sortByT (e : Nat × List (ℚ × Nat)).2)).length ≤ 2) →
    (keysOf es).Nodup →
    (∀ k ∈ keysOf es, dLookup st.m2c k = some []) →
    (List.foldl buildStep st es).lines = st.lines ∧
    (List.foldl buildStep st es).members = st.members ∧
    (List.foldl buildStep st es).toRemove = st.toRemove ∧
    (∀ k, k ∉ keysOf es →
      dLookup (List.foldl buildStep st es).m2c k = dLookup st.m2c k ∧
      dLookup (List.foldl buildStep st es).c2m k = dLookup st.c2m k) ∧
    (∀ k ∈ keysOf es,
      dLookup (List.foldl buildStep st es).m2c k = some [k] ∧
      dLookup (List.foldl buildStep st es).c2m k = some k) := by
  intro es
  induction es with
  | nil =>
    intro st _ _ _
    exact ⟨rfl, rfl, rfl, fun k _ => ⟨rfl, rfl⟩, fun k hk => absurd hk (by simp [keysOf])⟩
  | cons e es ih =>
    intro st hshort hnd hm2c
    have hd : (dedupAdj (sortByT e.2)).length ≤ 2 := hshort e (by simp)
    have hstep : buildStep st e =
        { st with m2c := dAppendAt st.m2c e.1 e.1,
                  c2m := dInsert st.c2m e.1 e.1 } := by
      obtain ⟨k0, s0⟩ := e
      exact buildStep_self hd
    have hnd2 : (keysOf es).Nodup := by
      simp only [keysOf, List.map_cons, List.nodup_cons] at hnd
      exact hnd.2
    have hnotin : e.1 ∉ keysOf es := by
      simp only [keysOf, List.map_cons, List.nodup_cons] at hnd
      exact hnd.1
    have hm2c_e : dLookup st.m2c e.1 = some [] := hm2c e.1 (by simp [keysOf])
    have hm2c' : ∀ k ∈ keysOf es,
        dLookup (buildStep st e).m2c k = some [] := by
      intro k hk
      rw [hstep]
      simp only []
      rw [dLookup_dAppendAt,
        if_neg (fun he : e.1 = k => hnotin (he ▸ hk))]
      exact hm2c k (by
        simp only [keysOf, List.map_cons, List.mem_cons]
        exact Or.inr hk)
    obtain ⟨il, im, it, ifr, iself⟩ := ih (buildStep st e)
      (fun e2 he2 => hshort e2 (List.mem_cons_of_mem _ he2)) hnd2 hm2c'
    simp only [List.foldl_cons]
    refine ⟨?_, ?_, ?_, ?_, ?_⟩
    · rw [il, hstep]
    · rw [im, hstep]
    · rw [it, hstep]
    · intro k hk
      have hk1 : k ≠ e.1 := fun he =>
        hk (by simp only [keysOf, List.map_cons, List.mem_cons]; exact Or.inl he)
      have hk2 : k ∉ keysOf es := fun hm =>
        hk (by simp only [keysOf, List.map_cons, List.mem_cons]; exact Or.inr hm)
      obtain ⟨f1, f2⟩ := ifr k hk2
      rw [f1, f2, hstep]
      simp only []
      rw [dLookup_dAppendAt, if_neg (fun he : e.1 = k => hk1 he.symm),
        dLookup_dInsert, if_neg (fun he : e.1 = k => hk1 he.symm)]
      exact ⟨rfl, rfl⟩
    · intro k hk
      simp only [keysOf, List.map_cons, List.mem_cons] at hk
      rcases hk with hk | hk
      · subst hk
        obtain ⟨f1, f2⟩ := ifr e.1 hnotin
        rw [f1, f2, hstep]
        simp only []
        rw [dLookup_dAppendAt, if_pos rfl, dLookup_dInsert, if_pos rfl,
          hm2c_e]
        exact ⟨rfl, rfl⟩
      · exact iself k hk

theorem initSplitParams_short (l : LinesDict) :
    ∀ e ∈ initSplitParams l,
      (dedupAdj (sortByT (e : Nat × List (ℚ × Nat)).2)).length ≤ 2 := by
  intro e he
  unfold initSplitParams at he
  obtain ⟨kv, hkv, rfl⟩ := List.mem_map.mp he
  exact seed_dedup_short kv.2.Ni kv.2.Nj

/-- `buildChildren` on split lists that all collapse to at most two entries:
the line and member tables survive unchanged and every line maps to itself. -/
theorem buildChildren_selfmap (lines : LinesDict) (members : MembersDict)
    (splits : SplitsDict) (base : Nat)
    (hnd : (keysOf lines).Nodup)
    (hk : keysOf splits = keysOf lines)
    (hshort : ∀ e ∈ splits,
      (dedupAdj (sortByT (e : Nat × List (ℚ × Nat)).2)).length ≤ 2) :
    (buildChildren lines members splits base).lines = lines ∧
    (buildChildren lines members splits base).members = members ∧
    keysOf (buildChildren lines members splits base).m2c = keysOf lines ∧
    (∀ k ∈ keysOf lines,
      dLookup (buildChildren lines members splits base).m2c k = some [k] ∧
      dLookup (buildChildren lines members splits base).c2m k = some k) := by
  have hndS : (keysOf splits).Nodup := by rw [hk]; exact hnd
  set st0 : BCState :=
    { lines := lines, members := members, m2c := initMother lines,
      c2m := [], nextId := base, toRemove := [] } with hst0
  have hm2c0 : ∀ k ∈ keysOf splits, dLookup st0.m2c k = some [] := by
    intro k hkk
    rw [hk] at hkk
    show dLookup (initMother lines) k = some []
    rw [dLookup_initMother, if_pos hkk]
  obtain ⟨hl, hm, ht, hfr, hself⟩ := buildLoop_short splits st0 hshort hndS hm2c0
  set st := List.foldl buildStep st0 splits with hst
  have hbc : buildChildren lines members splits base =
      { st with
        lines := st.lines.filter (fun kv => decide (kv.1 ∉ st.toRemove)) } := rfl
  have hlines : st.lines.filter (fun kv => decide (kv.1 ∉ st.toRemove)) =
      lines := by
    rw [ht, hl]
    show lines.filter (fun kv => decide (kv.1 ∉ ([] : List Nat))) = lines
    refine List.filter_eq_self.mpr ?_
    intro a _
    simp
  rw [hbc]
  refine ⟨hlines, ?_, ?_, ?_⟩
  · show st.members = members
    rw [hm]
  · show keysOf st.m2c = keysOf lines
    rw [hst, buildLoop_m2c_keys]
    show keysOf (initMother lines) = keysOf lines
    exact keysOf_initMother lines hnd
  · intro k hkk
    have hkS : k ∈ keysOf splits := by rw [hk]; exact hkk
    exact hself k hkS

/-- If the intersection collector leaves the node table unchanged and every
collected split list collapses, the whole run is the identity on geometry and
self-maps every line. -/
theorem connect_selfmap {nodes : NodesDict} {lines : LinesDict}
    {members : MembersDict} {tol : ℚ} {r : ConnectResult}
    (hnd : (keysOf lines).Nodup)
    (hcol : ∀ st : NodesDict × SplitsDict × Nat,
      collectIntersections nodes lines (initSplitParams lines) tol
        (if nodes.isEmpty then 1 else maxKey nodes + 1) = some st →
      st.1 = nodes ∧ ∀ e ∈ st.2.1,
        (dedupAdj (sortByT (e : Nat × List (ℚ × Nat)).2)).length ≤ 2)
    (hr : connect_lines_at_intersections nodes lines members tol = some r) :
    r.nodes = nodes ∧ r.lines = lines ∧ r.members = members ∧
    (∀ L ∈ keysOf lines, dLookup r.m2c L = some [L]) := by
  obtain ⟨st, hstC, maps, hmaps, hreq⟩ := connect_destruct hr
  obtain ⟨hst1, hshort⟩ := hcol st hstC
  have hkS : keysOf st.2.1 = keysOf lines := by
    rw [collectIntersections_splits_keys hstC, keysOf_initSplitParams]
  set base := (if lines.isEmpty then 1 else maxKey lines + 1) with hbase
  obtain ⟨hbl, hbm, hbkeys, hbself⟩ :=
    buildChildren_selfmap lines members st.2.1 base hnd hkS hshort
  set bc := buildChildren lines members st.2.1 base with hbc
  obtain ⟨info, hinfo, hmapsEq⟩ := augment_destruct hmaps
  have hinfokeys : keysOf info = keysOf lines := by
    rw [lineInfoList_keys hinfo, hbl]
  have hcand : ∀ kv ∈ info, dContains (bc.m2c, bc.c2m).2 kv.1 = true := by
    intro kv hkv
    have hkk : kv.1 ∈ keysOf lines := by
      rw [← hinfokeys]
      exact List.mem_map_of_mem Prod.fst hkv
    exact dContains_true_iff.mpr ⟨kv.1, (hbself kv.1 hkk).2⟩
  have hcont : ∀ m ∈ keysOf bc.m2c, dContains (bc.m2c, bc.c2m).1 m = true := by
    intro m hm
    rw [hbkeys] at hm
    exact dContains_true_iff.mpr ⟨[m], (hbself m hm).1⟩
  have hndM : (keysOf bc.m2c).Nodup := by rw [hbkeys]; exact hnd
  obtain ⟨hframe, hselfA⟩ := augLoop_spec info tol (keysOf bc.m2c)
    (bc.m2c, bc.c2m) hndM hcand hcont
  have hmapsL : ∀ L ∈ keysOf lines, dLookup maps.1 L = some [L] := by
    intro L hL
    have hLM : L ∈ keysOf bc.m2c := by rw [hbkeys]; exact hL
    obtain ⟨l, hl, hA1, hA2⟩ := hselfA L hLM
    simp only [] at hl
    rw [(hbself L hL).1] at hl
    have hlval : l = [L] := (Option.some.inj hl).symm
    rw [← hmapsEq] at hA1
    rw [hA1, hlval]
    rw [if_pos (List.mem_singleton.mpr rfl)]
  have hfin : List.foldl (finalizeStep bc.lines) (maps.1, maps.2)
      (keysOf lines) = (maps.1, maps.2) := by
    apply finalizeMappings_noop
    intro lid hlid
    exact ⟨[lid], hmapsL lid hlid, by simp⟩
  rw [hreq]
  refine ⟨hst1, hbl, hbm, ?_⟩
  intro L hL
  show dLookup (List.foldl (finalizeStep bc.lines) (maps.1, maps.2)
    (keysOf lines)).1 L = some [L]
  rw [hfin]
  exact hmapsL L hL

/-- C8: on an input with no coplanar crossings — every line pair is skipped
by the elevation gate or has an empty plan intersection — the run returns the
node, line and member collections unchanged and maps every line to itself. -/
theorem claim8_noop_idempotence (nodes : NodesDict) (lines : LinesDict)
    (members : MembersDict) (tol : ℚ) (r : ConnectResult)
    (hnd : (keysOf lines).Nodup)
    (hnh : ∀ p ∈ allPairs (keysOf lines), noHitPair nodes lines tol p = true)
    (hr : connect_lines_at_intersections nodes lines members tol = some r) :
    r.nodes = nodes ∧ r.lines = lines ∧ r.members = members ∧
    (∀ L ∈ keysOf lines, dLookup r.m2c L = some [L]) := by
  apply connect_selfmap hnd ?_ hr
  intro st hst
  have hst' : st = (nodes, initSplitParams lines,
      if nodes.isEmpty then 1 else maxKey nodes + 1) :=
    collectLoop_noHit (allPairs (keysOf lines)) _ st hst hnh
  subst hst'
  exact ⟨rfl, initSplitParams_short lines⟩

/-! ### Touching segments: the shared endpoint resolves to the shared node -/

/-- When the second segment starts exactly at the first segment's end, the
plan intersection is either rejected (degenerate denominator within
tolerance) or resolves exactly to the shared point with parameters 1 and 0. -/
theorem segInt_shared_endpoint (a b d : ℚ × ℚ) (tol : ℚ) (htol : 0 ≤ tol) :
    segmentIntersectionXY a b b d tol = none ∨
    segmentIntersectionXY a b b d tol = some (b.1, b.2, 1, 0) := by
  unfold segmentIntersectionXY
  simp only []
  by_cases h0 : almostEqual
      ((b.1 - a.1) * (d.2 - b.2) - (b.2 - a.2) * (d.1 - b.1)) 0 tol
  · left
    rw [if_pos h0]
  · right
    rw [if_neg h0]
    set den := (b.1 - a.1) * (d.2 - b.2) - (b.2 - a.2) * (d.1 - b.1) with hden
    have hdenne : den ≠ 0 := by
      intro he
      apply h0
      show |(b.1 - a.1) * (d.2 - b.2) - (b.2 - a.2) * (d.1 - b.1) - 0| ≤ tol
      rw [← hden, he]
      simpa using htol
    have ht : ((b.1 - a.1) * (d.2 - b.2) - (b.2 - a.2) * (d.1 - b.1)) / den
        = 1 := by
      rw [← hden]
      exact div_self hdenne
    have hu : ((b.1 - a.1) * (b.2 - a.2) - (b.2 - a.2) * (b.1 - a.1)) / den
        = 0 := by
      rw [mul_comm (b.2 - a.2) (b.1 - a.1), sub_self, zero_div]
    rw [ht, hu]
    have hcond : ¬ ((1 : ℚ) < -tol ∨ (1 : ℚ) > 1 + tol ∨ (0 : ℚ) < -tol ∨
        (0 : ℚ) > 1 + tol) := by
      push_neg
      refine ⟨by linarith, by linarith, by linarith, by linarith⟩
    rw [if_neg hcond]
    have hmx1 : min (max (1 : ℚ) 0) 1 = 1 := by norm_num
    have hmx0 : min (max (0 : ℚ) 0) 1 = 0 := by norm_num
    rw [hmx1, hmx0]
    have e1 : a.1 + 1 * (b.1 - a.1) = b.1 := by ring
    have e2 : a.2 + 1 * (b.2 - a.2) = b.2 := by ring
    rw [e1, e2]

/-- A seed split list with the far-end parameter duplicated still collapses
to at most two entries. -/
theorem touch_short_end (i1 i2 : Nat) :
    (dedupAdj (sortByT [((0 : ℚ), i1), ((1 : ℚ), i2), ((1 : ℚ), i2)])).length
      ≤ 2 := by
  have hs : sortByT [((0 : ℚ), i1), ((1 : ℚ), i2), ((1 : ℚ), i2)] =
      [((0 : ℚ), i1), ((1 : ℚ), i2), ((1 : ℚ), i2)] := by
    norm_num [sortByT, insertByT]
  rw [hs]
  by_cases h : i2 = i1
  · simp [dedupAdj, dedupAux, h]
  · simp [dedupAdj, dedupAux, h]

/-- A seed split list with the near-end parameter duplicated still collapses
to at most two entries. -/
theorem touch_short_start (i2 i3 : Nat) :
    (dedupAdj (sortByT [((0 : ℚ), i2), ((1 : ℚ), i3), ((0 : ℚ), i2)])).length
      ≤ 2 := by
  have hs : sortByT [((0 : ℚ), i2), ((1 : ℚ), i3), ((0 : ℚ), i2)] =
      [((0 : ℚ), i2), ((0 : ℚ), i2), ((1 : ℚ), i3)] := by
    norm_num [sortByT, insertByT]
  rw [hs]
  by_cases h : i3 = i2
  · simp [dedupAdj, dedupAux, h]
  · simp [dedupAdj, dedupAux, h]

/-- `collectStep` on the pair of segments `i1—i2` and `i2—i3` sharing node
`i2` exactly, all three nodes at one elevation, when the touch point resolves
back to node `i2`: the node table is untouched and either both split lists
receive the shared node's id at the endpoint parameter, or nothing happens at
all (plan intersection rejected as degenerate). -/
theorem collectStep_touch {nodes : NodesDict} {tol : ℚ}
    {lA lB i1 i2 i3 : Nat} {n1 n2 n3 : NodeInfo} {sd : SplitsDict} {nid : Nat}
    (htol : 0 ≤ tol) (hAB : lA ≠ lB)
    (h1 : dLookup nodes i1 = some n1) (h2 : dLookup nodes i2 = some n2)
    (h3 : dLookup nodes i3 = some n3)
    (hz1 : n1.z = n2.z) (hz3 : n3.z = n2.z)
    (hfind : findExistingNode nodes n2.x n2.y n2.z tol = some i2) :
    collectStep [(lA, ⟨lA, i1, i2⟩), (lB, ⟨lB, i2, i3⟩)] tol (nodes, sd, nid)
        (lA, lB) =
      some (nodes,
        dAppendAt (dAppendAt sd lA ((1 : ℚ), i2)) lB ((0 : ℚ), i2), nid) ∨
    collectStep [(lA, ⟨lA, i1, i2⟩), (lB, ⟨lB, i2, i3⟩)] tol (nodes, sd, nid)
        (lA, lB) = some (nodes, sd, nid) := by
  unfold collectStep
  have hLA : dLookup [(lA, (⟨lA, i1, i2⟩ : LineInfo)), (lB, ⟨lB, i2, i3⟩)] lA
      = some ⟨lA, i1, i2⟩ := by
    simp [dLookup]
  have hLB : dLookup [(lA, (⟨lA, i1, i2⟩ : LineInfo)), (lB, ⟨lB, i2, i3⟩)] lB
      = some ⟨lB, i2, i3⟩ := by
    simp [dLookup, hAB]
  simp only []
  rw [hLA, hLB]
  simp only []
  rw [h1, h2, h3]
  simp only []
  have hz : (n1.z + n2.z) * (1/2) - (n2.z + n3.z) * (1/2) = 0 := by
    rw [hz1, hz3]
    ring
  rw [hz]
  have hcond : ¬ (|(0 : ℚ)| > max tol (10 * tol)) := by
    rw [abs_zero, not_lt]
    exact le_trans htol (le_max_left _ _)
  rw [if_neg hcond]
  rcases segInt_shared_endpoint (n1.x, n1.y) (n2.x, n2.y) (n3.x, n3.y) tol
    htol with hseg | hseg
  · rw [hseg]
    right
    rfl
  · rw [hseg]
    simp only []
    have hzu : ((n1.z + n2.z) * (1/2) + (n2.z + n3.z) * (1/2)) * (1/2)
        = n2.z := by
      rw [hz1, hz3]
      ring
    rw [hzu, hfind]
    left
    rfl

/-- C5 (amended): two segments meeting exactly at a shared endpoint node,
with all three referenced nodes at one elevation, where the touch point
resolves back to the shared node through `findExistingNode`: the run creates
no node, splits neither segment, and self-maps both lines. Without the
resolution hypothesis this fails: when the three nodes sit at slightly
different elevations the averaged intersection elevation matches no existing
node and both segments are spuriously split. -/
theorem claim5_endpoint_touch_amended (nodes : NodesDict)
    (members : MembersDict) (tol : ℚ) (lA lB i1 i2 i3 : Nat)
    (n1 n2 n3 : NodeInfo) (r : ConnectResult)
    (htol : 0 ≤ tol) (hAB : lA ≠ lB)
    (h1 : dLookup nodes i1 = some n1) (h2 : dLookup nodes i2 = some n2)
    (h3 : dLookup nodes i3 = some n3)
    (hz1 : n1.z = n2.z) (hz3 : n3.z = n2.z)
    (hfind : findExistingNode nodes n2.x n2.y n2.z tol = some i2)
    (hr : connect_lines_at_intersections nodes
      [(lA, ⟨lA, i1, i2⟩), (lB, ⟨lB, i2, i3⟩)] members tol = some r) :
    r.nodes = nodes ∧ r.lines = [(lA, ⟨lA, i1, i2⟩), (lB, ⟨lB, i2, i3⟩)] ∧
    r.members = members ∧
    dLookup r.m2c lA = some [lA] ∧ dLookup r.m2c lB = some [lB] := by
  have hnd : (keysOf
      [(lA, (⟨lA, i1, i2⟩ : LineInfo)), (lB, ⟨lB, i2, i3⟩)]).Nodup := by
    simp [keysOf, hAB]
  have hcol : ∀ st : NodesDict × SplitsDict × Nat,
      collectIntersections nodes [(lA, ⟨lA, i1, i2⟩), (lB, ⟨lB, i2, i3⟩)]
        (initSplitParams [(lA, ⟨lA, i1, i2⟩), (lB, ⟨lB, i2, i3⟩)]) tol
        (if nodes.isEmpty then 1 else maxKey nodes + 1) = some st →
      st.1 = nodes ∧ ∀ e ∈ st.2.1,
        (dedupAdj (sortByT (e : Nat × List (ℚ × Nat)).2)).length ≤ 2 := by
    intro st hst
    have hst2 : collectLoop [(lA, ⟨lA, i1, i2⟩), (lB, ⟨lB, i2, i3⟩)] tol
        [(lA, lB)]
        (nodes, initSplitParams [(lA, ⟨lA, i1, i2⟩), (lB, ⟨lB, i2, i3⟩)],
          if nodes.isEmpty then 1 else maxKey nodes + 1) = some st := hst
    simp only [collectLoop] at hst2
    rcases @collectStep_touch nodes tol lA lB i1 i2 i3 n1 n2 n3
        (initSplitParams [(lA, ⟨lA, i1, i2⟩), (lB, ⟨lB, i2, i3⟩)])
        (if nodes.isEmpty then 1 else maxKey nodes + 1)
        htol hAB h1 h2 h3 hz1 hz3 hfind with hcs | hcs
    · rw [hcs] at hst2
      simp only [collectLoop, Option.some.injEq] at hst2
      rw [← hst2]
      refine ⟨rfl, ?_⟩
      have hS : dAppendAt (dAppendAt
          (initSplitParams [(lA, ⟨lA, i1, i2⟩), (lB, ⟨lB, i2, i3⟩)])
          lA ((1 : ℚ), i2)) lB ((0 : ℚ), i2) =
          [(lA, [((0 : ℚ), i1), ((1 : ℚ), i2), ((1 : ℚ), i2)]),
           (lB, [((0 : ℚ), i2), ((1 : ℚ), i3), ((0 : ℚ), i2)])] := by
        simp [initSplitParams, dAppendAt, hAB]
      show ∀ e ∈ dAppendAt (dAppendAt
          (initSplitParams [(lA, ⟨lA, i1, i2⟩), (lB, ⟨lB, i2, i3⟩)])
          lA ((1 : ℚ), i2)) lB ((0 : ℚ), i2),
        (dedupAdj (sortByT (e : Nat × List (ℚ × Nat)).2)).length ≤ 2
      rw [hS]
      intro e he
      rcases List.mem_cons.mp he with he1 | he2
      · rw [he1]
        exact touch_short_end i1 i2
      · rcases List.mem_cons.mp he2 with he3 | he4
        · rw [he3]
          exact touch_short_start i2 i3
        · exact absurd he4 (List.not_mem_nil e)
    · rw [hcs] at hst2
      simp only [collectLoop, Option.some.injEq] at hst2
      rw [← hst2]
      exact ⟨rfl, initSplitParams_short _⟩
  obtain ⟨hn, hl, hm, hmap⟩ := connect_selfmap hnd hcol hr
  refine ⟨hn, hl, hm, ?_, ?_⟩
  · exact hmap lA (by simp [keysOf])
  · exact hmap lB (by simp [keysOf])

/-! ### Concrete inputs used by the computational claims and witnesses -/

/-- Two diagonals of a square at elevation 0, crossing at `(5, 5, 0)`. -/
def crossNodes : NodesDict :=
  [(1, ⟨1, 0, 0, 0⟩), (2, ⟨2, 10, 10, 0⟩), (3, ⟨3, 0, 10, 0⟩),
   (4, ⟨4, 10, 0, 0⟩)]

def crossLines : LinesDict := [(1, ⟨1, 1, 2⟩), (2, ⟨2, 3, 4⟩)]

/-- The value `connect_lines_at_intersections` returns on the crossing
diagonals with no members. -/
def crossResult : ConnectResult :=
  { nodes := [(1, ⟨1, 0, 0, 0⟩), (2, ⟨2, 10, 10, 0⟩), (3, ⟨3, 0, 10, 0⟩),
              (4, ⟨4, 10, 0, 0⟩), (5, ⟨5, 5, 5, 0⟩)],
    lines := [(3, ⟨3, 1, 5⟩), (4, ⟨4, 5, 2⟩), (5, ⟨5, 3, 5⟩), (6, ⟨6, 5, 4⟩)],
    members := [],
    m2c := [(1, [3, 4, 1]), (2, [5, 6, 2])],
    c2m := [(3, 1), (4, 1), (5, 2), (6, 2), (1, 1), (2, 2)] }

/-- A member record with `cross_section_id 7` and `material_name "Steel"` on
line 1. -/
def crossMembers : MembersDict := [(1, ⟨1, 7, "Steel"⟩)]

/-- The value returned on the crossing diagonals when line 1 carries the
member above: both children of line 1 inherit the record. -/
def crossResultMembers : ConnectResult :=
  { nodes := crossResult.nodes,
    lines := crossResult.lines,
    members := [(3, ⟨3, 7, "Steel"⟩), (4, ⟨4, 7, "Steel"⟩)],
    m2c := crossResult.m2c,
    c2m := crossResult.c2m }

/-- Two parallel segments at elevation 0: no line pair produces a hit. -/
def parNodes : NodesDict :=
  [(1, ⟨1, 0, 0, 0⟩), (2, ⟨2, 10, 0, 0⟩), (3, ⟨3, 0, 5, 0⟩),
   (4, ⟨4, 10, 5, 0⟩)]

def parLines : LinesDict := [(1, ⟨1, 1, 2⟩), (2, ⟨2, 3, 4⟩)]

/-- The run on the parallel pair returns the input unchanged, self-mapped. -/
def parResult : ConnectResult :=
  { nodes := parNodes, lines := parLines, members := [],
    m2c := [(1, [1]), (2, [2])], c2m := [(1, 1), (2, 2)] }

/-- Segments `1—2` (elevation 0) and `2—3` (far endpoint `8·tol` higher)
sharing node 2 and touching nowhere else in plan. -/
def touchNodes : NodesDict :=
  [(1, ⟨1, 0, 0, 0⟩), (2, ⟨2, 10, 0, 0⟩), (3, ⟨3, 10, 10, 8/1000000⟩)]

def touchLines : LinesDict := [(1, ⟨1, 1, 2⟩), (2, ⟨2, 2, 3⟩)]

/-- The run on the touching pair above: the averaged intersection elevation
`2·tol` matches no existing node, so a fresh node 4 appears and both
segments are split through it. -/
def touchResult : ConnectResult :=
  { nodes := [(1, ⟨1, 0, 0, 0⟩), (2, ⟨2, 10, 0, 0⟩),
              (3, ⟨3, 10, 10, 8/1000000⟩), (4, ⟨4, 10, 0, 2/1000000⟩)],
    lines := [(3, ⟨3, 1, 2⟩), (4, ⟨4, 2, 4⟩), (5, ⟨5, 2, 4⟩),
              (6, ⟨6, 4, 3⟩)],
    members := [],
    m2c := [(1, [3, 4, 1]), (2, [5, 6, 2])],
    c2m := [(3, 1), (4, 1), (5, 2), (6, 2), (1, 1), (2, 2)] }

/-- The same touch configuration with all three nodes at elevation 0. -/
def touchNodes0 : NodesDict :=
  [(1, ⟨1, 0, 0, 0⟩), (2, ⟨2, 10, 0, 0⟩), (3, ⟨3, 10, 10, 0⟩)]

/-- The run on the flat touch configuration: identity, self-mapped. -/
def touchResult0 : ConnectResult :=
  { nodes := touchNodes0, lines := touchLines, members := [],
    m2c := [(1, [1]), (2, [2])], c2m := [(1, 1), (2, 2)] }

section ComputationalClaims

attribute [local semireducible] Rat.add Rat.sub Rat.mul Rat.inv

/-- C3 counterexample: on the two crossing diagonals the run does produce the
four children 3, 4 (of mother 1) and 5, 6 (of mother 2), but each mother's
`mother_to_children` entry has three elements — the two child ids followed by
the mother's own id, appended by the augmentation self-mapping — so the
entry does not list exactly the two child ids as the claim states. -/
theorem claim3_cross_split_counterexample :
    connect_lines_at_intersections crossNodes crossLines [] (1/1000000) =
      some crossResult ∧
    (dLookup crossResult.m2c 1).map List.length ≠ some 2 ∧
    (dLookup crossResult.m2c 2).map List.length ≠ some 2 := by
  decide

/-- C3 amended: the cross input yields exactly one new synthetic node, id 5
at `(5, 5, 0)`; each mother is split into exactly two children (3, 4 resp.
5, 6) whose endpoint pairs chain the mother's endpoints through node 5; the
final line collection holds exactly those four children; and each mother's
`mother_to_children` entry lists its two children followed by the mother's
own id (the augmentation self-append). -/
theorem claim3_cross_split_amended :
    connect_lines_at_intersections crossNodes crossLines [] (1/1000000) =
      some crossResult ∧
    crossResult.nodes = crossNodes ++ [(5, ⟨5, 5, 5, 0⟩)] ∧
    crossResult.lines =
      [(3, ⟨3, 1, 5⟩), (4, ⟨4, 5, 2⟩), (5, ⟨5, 3, 5⟩), (6, ⟨6, 5, 4⟩)] ∧
    dLookup crossResult.m2c 1 = some [3, 4, 1] ∧
    dLookup crossResult.m2c 2 = some [5, 6, 2] := by
  decide

/-- C4 (code bug): line 2 `(2,0,0)-(5,0,0)` lies exactly on the span of
mother line 1 `(0,0,0)-(10,0,0)`: its average elevation matches, both its
endpoints are collinear with the mother's in plan and inside the mother's
parametric span — the attachment conditions of the augmenter's docstring all
hold.  Yet the run leaves `mother_to_children = {1: [1], 2: [2]}` and
`child_to_mother[2] = 2`: the candidate is never attached, because
`buildChildren` has already self-mapped every line, so the augmenter's
`already mapped` guard skips every candidate.  The attachment branch is
unreachable, contradicting the function's own documentation. -/
theorem claim4_augmentation_dead :
    sameElevation 0 0 (1/1000000) ∧
    collinearXY (0, 0) (10, 0) (2, 0) (1/1000000) ∧
    collinearXY (0, 0) (10, 0) (5, 0) (1/1000000) ∧
    pointOnSegmentXY (0, 0) (10, 0) (2, 0) (1/1000000) ∧
    pointOnSegmentXY (0, 0) (10, 0) (5, 0) (1/1000000) ∧
    connect_lines_at_intersections
      [(1, ⟨1, 0, 0, 0⟩), (2, ⟨2, 10, 0, 0⟩), (3, ⟨3, 2, 0, 0⟩),
       (4, ⟨4, 5, 0, 0⟩)]
      [(1, ⟨1, 1, 2⟩), (2, ⟨2, 3, 4⟩)] [] (1/1000000) =
      some { nodes := [(1, ⟨1, 0, 0, 0⟩), (2, ⟨2, 10, 0, 0⟩),
                       (3, ⟨3, 2, 0, 0⟩), (4, ⟨4, 5, 0, 0⟩)],
             lines := [(1, ⟨1, 1, 2⟩), (2, ⟨2, 3, 4⟩)],
             members := [],
             m2c := [(1, [1]), (2, [2])],
             c2m := [(1, 1), (2, 2)] } := by
  decide

/-- C5 counterexample: segments `1—2` and `2—3` share exactly the endpoint
node 2 (within any tolerance — they reference the same node) and touch
nowhere else, yet because node 3 sits `8·tol` higher the averaged
intersection elevation (`2·tol` above node 2) matches no existing node: the
run mints a fresh node 4 at `(10, 0, 2·tol)` and splits both segments, so
neither maps to itself and both mothers are removed. -/
theorem claim5_endpoint_touch_counterexample :
    connect_lines_at_intersections touchNodes touchLines [] (1/1000000) =
      some touchResult ∧
    (dLookup touchLines 1).map LineInfo.Nj = some 2 ∧
    (dLookup touchLines 2).map LineInfo.Ni = some 2 ∧
    touchResult.nodes ≠ touchNodes ∧
    dLookup touchResult.m2c 1 ≠ some [1] ∧
    dLookup touchResult.m2c 2 ≠ some [2] ∧
    dLookup touchResult.lines 1 = none ∧
    dLookup touchResult.lines 2 = none := by
  decide

end ComputationalClaims

/-- C9: the working copies the pipeline mutates are field-for-field clones of
the caller-supplied collections — `cloneNodes`, `cloneLines` and
`cloneMembers` rebuild every record without altering any field, so the
collections the caller passed in are element-for-element equal to the clones
the computation starts from.  In this pure embedding the caller's collections
are, by construction, never written through; the clone identities are the
checkable value-level content of that claim. -/
theorem claim9_clone_purity :
    ∀ (nodes : NodesDict) (lines : LinesDict) (members : MembersDict),
      cloneNodes nodes = nodes ∧ cloneLines lines = lines ∧
        cloneMembers members = members :=
  fun nodes lines members =>
    ⟨cloneNodes_eq nodes, cloneLines_eq lines, cloneMembers_eq members⟩

/-- C6: a pair of lines whose average elevations differ by more than the
elevation tolerance `max tol (10·tol)` is skipped by the intersection
collector: the step returns the state unchanged, so neither line's split
list grows and no node is created for the pair, whatever the plan geometry.
-/
theorem claim6_elevation_exclusion
    {new_lines : LinesDict} {tol : ℚ} {st : NodesDict × SplitsDict × Nat}
    {pr : Nat × Nat} {li lj : LineInfo} {nPi nPj nQi nQj : NodeInfo}
    (h1 : dLookup new_lines pr.1 = some li)
    (h2 : dLookup new_lines pr.2 = some lj)
    (h3 : dLookup st.1 li.Ni = some nPi)
    (h4 : dLookup st.1 li.Nj = some nPj)
    (h5 : dLookup st.1 lj.Ni = some nQi)
    (h6 : dLookup st.1 lj.Nj = some nQj)
    (helev : |(nPi.z + nPj.z) * (1/2) - (nQi.z + nQj.z) * (1/2)| >
      max tol (10 * tol)) :
    collectStep new_lines tol st pr = some st := by
  unfold collectStep
  rw [h1, h2]
  simp only []
  rw [h3, h4, h5, h6]
  simp only []
  rw [if_pos helev]

/-- C1: after a successful run, every line id of the original input
collection is a key of `mother_to_children`, and its entry is non-empty —
unconditionally, hence in particular whenever the id survives in, or was
split out of, the final line collection. -/
theorem claim1_coverage {nodes : NodesDict} {lines : LinesDict}
    {members : MembersDict} {tol : ℚ} {r : ConnectResult}
    (Hnd : (keysOf lines).Nodup)
    (h : connect_lines_at_intersections nodes lines members tol = some r) :
    ∀ lid ∈ keysOf lines, ∃ l, dLookup r.m2c lid = some l ∧ l ≠ [] := by
  intro lid hlid
  obtain ⟨L1, _, _, _⟩ := connect_lineage_spec Hnd h
  obtain ⟨l, hl, hmem, _⟩ := L1 lid hlid
  exact ⟨l, hl, fun he => by simp [he] at hmem⟩

/-- C2: every line id in the returned line collection belongs to exactly one
mother: there is exactly one mother id `m` whose `mother_to_children` entry
contains it, membership forces `child_to_mother` to point to that mother,
and every key of `child_to_mother` appears in its mother's entry. -/
theorem claim2_partition {nodes : NodesDict} {lines : LinesDict}
    {members : MembersDict} {tol : ℚ} {r : ConnectResult}
    (Hnd : (keysOf lines).Nodup)
    (h : connect_lines_at_intersections nodes lines members tol = some r) :
    (∀ c ∈ keysOf r.lines, ∃! m : Nat, ∃ l, dLookup r.m2c m = some l ∧ c ∈ l) ∧
    (∀ c ∈ keysOf r.lines, ∀ m l, dLookup r.m2c m = some l → c ∈ l →
      dLookup r.c2m c = some m) ∧
    (∀ k m, dLookup r.c2m k = some m → ∃ l, dLookup r.m2c m = some l ∧ k ∈ l) := by
  obtain ⟨_, L2, L3, L4⟩ := connect_lineage_spec Hnd h
  refine ⟨?_, ?_, L3⟩
  · intro c hc
    have hcont : dContains r.c2m c = true := L4 c (dContains_iff_mem_keys.mpr hc)
    obtain ⟨m, hm⟩ := dContains_true_iff.mp hcont
    obtain ⟨l, hl, hcl⟩ := L3 c m hm
    refine ⟨m, ⟨l, hl, hcl⟩, ?_⟩
    rintro m' ⟨l', hl', hcl'⟩
    have h2 := L2 m' l' hl' c hcl'
    rw [hm] at h2
    simp only [Option.some.injEq] at h2
    exact h2.symm
  · intro c _ m l hl hcl
    exact L2 m l hl c hcl

/-- C10: for every original input line id `m` — including mothers that were
split and deleted from the returned line collection — `m` is an element of
its own `mother_to_children` entry and `child_to_mother[m] = m`, because the
augmentation step self-appends every mother. -/
theorem claim10_self_mapping {nodes : NodesDict} {lines : LinesDict}
    {members : MembersDict} {tol : ℚ} {r : ConnectResult}
    (Hnd : (keysOf lines).Nodup)
    (h : connect_lines_at_intersections nodes lines members tol = some r) :
    ∀ m ∈ keysOf lines, ∃ l, dLookup r.m2c m = some l ∧ m ∈ l ∧
      dLookup r.c2m m = some m := by
  intro m hm
  obtain ⟨L1, _, _, _⟩ := connect_lineage_spec Hnd h
  exact L1 m hm

/-- C7: when an original line carrying a member record is split (it is gone
from the returned line collection), every child in its entry receives a
member record copying `cross_section_id` and `material_name` from the
mother's, the mother's member record is absent from the returned members,
and when the mother had no member its children receive none.  Members are
assumed keyed by their own line id and referencing existing lines — the
shape the application constructs. -/
theorem claim7_attribute_propagation {nodes : NodesDict} {lines : LinesDict}
    {members : MembersDict} {tol : ℚ} {r : ConnectResult}
    (Hnd : (keysOf lines).Nodup) (HndM : (keysOf members).Nodup)
    (Hmem : ∀ mid mi, dLookup members mid = some mi →
      mi.line_id = mid ∧ mid ∈ keysOf lines)
    (h : connect_lines_at_intersections nodes lines members tol = some r)
    (lid : Nat) (hin : lid ∈ keysOf lines)
    (hout : dContains r.lines lid = false) :
    (∀ mi, dLookup members lid = some mi →
      ∀ l, dLookup r.m2c lid = some l → ∀ c ∈ l, c ≠ lid →
        dLookup r.members c =
          some { line_id := c, cross_section_id := mi.cross_section_id,
                 material_name := mi.material_name }) ∧
    (∀ mid mi, dLookup r.members mid = some mi → mi.line_id ≠ lid) ∧
    (dLookup members lid = none →
      ∀ l, dLookup r.m2c lid = some l → ∀ c ∈ l, c ≠ lid →
        dLookup r.members c = none) := by
  obtain ⟨habsent, hnoref, hfact⟩ :=
    connect_members_spec Hnd HndM Hmem h lid hin hout
  refine ⟨?_, hnoref, ?_⟩
  · intro mi hmi l hl c hc hcne
    have hf := hfact l hl c hc hcne
    rw [hmi] at hf
    exact hf
  · intro hnone l hl c hc hcne
    have hf := hfact l hl c hc hcne
    rw [hnone] at hf
    exact hf

section ClaimWitnesses

attribute [local semireducible] Rat.add Rat.sub Rat.mul Rat.inv

/-- Witness for C1 at the crossing-diagonals input, mother id 1. -/
theorem claim1_coverage_witness :
    (keysOf crossLines).Nodup ∧
    (∃ l, dLookup crossResult.m2c 1 = some l ∧ l ≠ []) :=
  ⟨by decide,
    @claim1_coverage crossNodes crossLines [] (1/1000000) crossResult
      (by decide) (by decide) 1 (by decide)⟩

/-- Witness for C2 at the crossing-diagonals input, child id 3. -/
theorem claim2_partition_witness :
    (keysOf crossLines).Nodup ∧
    (∃! m : Nat, ∃ l, dLookup crossResult.m2c m = some l ∧ 3 ∈ l) :=
  ⟨by decide,
    (@claim2_partition crossNodes crossLines [] (1/1000000) crossResult
      (by decide) (by decide)).1 3 (by decide)⟩

/-- Witness for C10 at the crossing-diagonals input: the split (and deleted)
mother 1 is inside its own entry and self-mapped. -/
theorem claim10_self_mapping_witness :
    (keysOf crossLines).Nodup ∧
    (∃ l, dLookup crossResult.m2c 1 = some l ∧ 1 ∈ l ∧
      dLookup crossResult.c2m 1 = some 1) :=
  ⟨by decide,
    @claim10_self_mapping crossNodes crossLines [] (1/1000000) crossResult
      (by decide) (by decide) 1 (by decide)⟩

/-- Witness for C7: on the crossing diagonals with a Steel member on mother
1, child 3 inherits a field-for-field copy of the member. -/
theorem claim7_attribute_propagation_witness :
    dLookup crossMembers 1 = some ⟨1, 7, "Steel"⟩ ∧
    dLookup crossResultMembers.members 3 = some ⟨3, 7, "Steel"⟩ :=
  ⟨by decide,
    (@claim7_attribute_propagation crossNodes crossLines crossMembers
      (1/1000000) crossResultMembers (by decide) (by decide)
      (by
        intro mid mi hmi
        by_cases h1 : mid = 1
        · subst h1
          have he : dLookup crossMembers 1 =
              some (⟨1, 7, "Steel"⟩ : MemberInfo) := by decide
          rw [he] at hmi
          simp only [Option.some.injEq] at hmi
          subst hmi
          exact ⟨rfl, by decide⟩
        · have he : dLookup crossMembers mid = none := by
            unfold crossMembers
            simp only [dLookup]
            rw [if_neg (fun he2 : 1 = mid => h1 he2.symm)]
          rw [he] at hmi
          exact Option.noConfusion hmi)
      (by decide) 1 (by decide) (by decide)).1
      ⟨1, 7, "Steel"⟩ (by decide) [3, 4, 1] (by decide) 3 (by decide)
      (by decide)⟩

/-- Witness for C6: two segments crossing in plan but one story apart
(average elevations 0 and 1, tolerance `1e-6`) are skipped unchanged. -/
theorem claim6_elevation_exclusion_witness :
    (|((0:ℚ) + 0) * (1/2) - ((1:ℚ) + 1) * (1/2)| >
      max (1/1000000) (10 * (1/1000000))) ∧
    collectStep [(1, ⟨1, 1, 2⟩), (2, ⟨2, 3, 4⟩)] (1/1000000)
      ([(1, ⟨1, 0, 0, 0⟩), (2, ⟨2, 10, 10, 0⟩), (3, ⟨3, 0, 10, 1⟩),
        (4, ⟨4, 10, 0, 1⟩)],
       initSplitParams [(1, ⟨1, 1, 2⟩), (2, ⟨2, 3, 4⟩)], 5) (1, 2) =
      some ([(1, ⟨1, 0, 0, 0⟩), (2, ⟨2, 10, 10, 0⟩), (3, ⟨3, 0, 10, 1⟩),
        (4, ⟨4, 10, 0, 1⟩)],
       initSplitParams [(1, ⟨1, 1, 2⟩), (2, ⟨2, 3, 4⟩)], 5) :=
  ⟨by decide,
    @claim6_elevation_exclusion [(1, ⟨1, 1, 2⟩), (2, ⟨2, 3, 4⟩)] (1/1000000)
      ([(1, ⟨1, 0, 0, 0⟩), (2, ⟨2, 10, 10, 0⟩), (3, ⟨3, 0, 10, 1⟩),
        (4, ⟨4, 10, 0, 1⟩)],
       initSplitParams [(1, ⟨1, 1, 2⟩), (2, ⟨2, 3, 4⟩)], 5) (1, 2)
      ⟨1, 1, 2⟩ ⟨2, 3, 4⟩ ⟨1, 0, 0, 0⟩ ⟨2, 10, 10, 0⟩ ⟨3, 0, 10, 1⟩
      ⟨4, 10, 0, 1⟩ (by decide) (by decide) (by decide) (by decide)
      (by decide) (by decide) (by decide)⟩

/-- C8 witness: the parallel pair run by the entry point. -/
theorem claim8_noop_idempotence_witness :
    parResult.nodes = parNodes ∧ parResult.lines = parLines ∧
    parResult.members = [] ∧
    (∀ L ∈ keysOf parLines, dLookup parResult.m2c L = some [L]) :=
  @claim8_noop_idempotence parNodes parLines [] (1/1000000) parResult
    (by decide) (by decide) (by decide)

/-- C5 witness: the flat touch configuration run by the entry point. -/
theorem claim5_endpoint_touch_amended_witness :
    touchResult0.nodes = touchNodes0 ∧
    touchResult0.lines = [(1, ⟨1, 1, 2⟩), (2, ⟨2, 2, 3⟩)] ∧
    touchResult0.members = [] ∧
    dLookup touchResult0.m2c 1 = some [1] ∧
    dLookup touchResult0.m2c 2 = some [2] :=
  @claim5_endpoint_touch_amended touchNodes0 [] (1/1000000) 1 2 1 2 3
    ⟨1, 0, 0, 0⟩ ⟨2, 10, 0, 0⟩ ⟨3, 10, 10, 0⟩ touchResult0
    (by decide) (by decide) (by decide) (by decide) (by decide) (by decide)
    (by decide) (by decide) (by decide)

end ClaimWitnesses

end ConnectLines
